import Mathlib

/-!
Verification of a lazy-propagation segment tree supporting range-add updates
and range-sum queries (source: `src/segment_tree.cc`).

The C++ class `SegmentTree` owns two `vector<int>` arrays `tree` and `lazy`
(each of size `4 * n`) and an element count `n`.  We embed the state as a
structure whose `tree` and `lazy` fields are total functions `ℕ → ℤ`
(machine-integer overflow is explicitly the caller's responsibility in the
spec, so values are modelled as unbounded integers; a separate bounds theorem
shows all positions touched lie below `4 * n`).  All index/range parameters
that are C++ `int`s are modelled as `ℤ`.  The recursive routines are embedded
as structurally recursive functions on an explicit recursion-depth bound
(`fuel`); the C++ functions are the instances with sufficient fuel, and a
fuel-irrelevance theorem shows any sufficient bound gives the same result,
which is exactly the well-founded-recursion termination argument on
`end - start`.
-/

/-- State of the C++ `SegmentTree` object: the `tree` (aggregate) array, the
`lazy` (pending update) array, and the element count `n`.  Array cells beyond
the positions ever touched are irrelevant; they are modelled as total
functions. -/
structure SegmentTree where
  tree : ℕ → ℤ
  lazy : ℕ → ℤ
  n : ℕ

/-- Single array write `tree[i] = x`. -/
def setTree (st : SegmentTree) (i : ℕ) (x : ℤ) : SegmentTree :=
  { st with tree := Function.update st.tree i x }

/-- Single array write `lazy[i] = x`. -/
def setLazy (st : SegmentTree) (i : ℕ) (x : ℤ) : SegmentTree :=
  { st with lazy := Function.update st.lazy i x }

/-- `ROOT_NODE` of the C++ class: the root of the segment tree is at index 1. -/
def ROOT_NODE : ℕ := 1

/-- Embedding of `SegmentTree::push` (lines 19-29): if the pending value at
`node` is non-zero, fold it into the node's aggregate, forward it to both
children's pending slots when `node` is not a leaf (`s ≠ e`), and clear it.
The writes are performed sequentially, each reading the state produced by the
previous one, exactly as the C++ statements do. -/
def push (st : SegmentTree) (node : ℕ) (s e : ℤ) : SegmentTree :=
  if st.lazy node ≠ 0 then
    let st1 := setTree st node (st.tree node + st.lazy node * (e - s + 1))
    let st2 :=
      if s ≠ e then
        let stL := setLazy st1 (2 * node) (st1.lazy (2 * node) + st1.lazy node)
        setLazy stL (2 * node + 1) (stL.lazy (2 * node + 1) + stL.lazy node)
      else st1
    setLazy st2 node 0
  else st

/-- Fuelled form of `SegmentTree::build_recursive` (lines 35-44).  `fuel`
bounds the recursion depth; with `fuel > end - start` it computes exactly the
C++ recursion (see the fuel-irrelevance theorem).  Leaf: store `arr[start]`;
otherwise build both halves around the midpoint and combine. -/
def buildGo (arr : List ℤ) : ℕ → SegmentTree → ℕ → ℤ → ℤ → SegmentTree
  | 0, st, _, _, _ => st
  | fuel + 1, st, node, s, e =>
    if s = e then setTree st node (arr.getD s.toNat 0)
    else
      let mid := s + (e - s) / 2
      let st1 := buildGo arr fuel st (2 * node) s mid
      let st2 := buildGo arr fuel st1 (2 * node + 1) (mid + 1) e
      setTree st2 node (st2.tree (2 * node) + st2.tree (2 * node + 1))

/-- `SegmentTree::build_recursive` (lines 35-44): the fuelled recursion run
with sufficient fuel.  The constructor only invokes it with `s ≤ e`. -/
def build_recursive (arr : List ℤ) (st : SegmentTree) (node : ℕ) (s e : ℤ) :
    SegmentTree :=
  buildGo arr ((e - s).toNat + 1) st node s e

/-- Fuelled form of `SegmentTree::update_recursive` (lines 51-75): push the
pending value at `node`, return on a disjoint range, apply the update directly
(and defer to the children's pending slots) on full containment, otherwise
recurse on both halves and recombine the aggregate. -/
def updateGo : ℕ → SegmentTree → ℕ → ℤ → ℤ → ℤ → ℤ → ℤ → SegmentTree
  | 0, st, _, _, _, _, _, _ => st
  | fuel + 1, st, node, s, e, l, r, v =>
    let st1 := push st node s e
    if s > e ∨ s > r ∨ e < l then st1
    else if l ≤ s ∧ e ≤ r then
      let st2 := setTree st1 node (st1.tree node + v * (e - s + 1))
      if s ≠ e then
        let stL := setLazy st2 (2 * node) (st2.lazy (2 * node) + v)
        setLazy stL (2 * node + 1) (stL.lazy (2 * node + 1) + v)
      else st2
    else
      let mid := s + (e - s) / 2
      let st2 := updateGo fuel st1 (2 * node) s mid l r v
      let st3 := updateGo fuel st2 (2 * node + 1) (mid + 1) e l r v
      setTree st3 node (st3.tree (2 * node) + st3.tree (2 * node + 1))

/-- `SegmentTree::update_recursive` (lines 51-75): the fuelled recursion run
with sufficient fuel (`end - start + 1` levels always suffice). -/
def update_recursive (st : SegmentTree) (node : ℕ) (s e l r v : ℤ) :
    SegmentTree :=
  updateGo ((e - s).toNat + 1) st node s e l r v

/-- Fuelled form of `SegmentTree::query_recursive` (lines 81-99): return 0 on
a disjoint range (before pushing), push the pending value at `node`, return
the aggregate on full containment, otherwise recurse on both halves and sum.
The (possibly mutated) state is returned alongside the result. -/
def queryGo : ℕ → SegmentTree → ℕ → ℤ → ℤ → ℤ → ℤ → SegmentTree × ℤ
  | 0, st, _, _, _, _, _ => (st, 0)
  | fuel + 1, st, node, s, e, l, r =>
    if s > e ∨ s > r ∨ e < l then (st, 0)
    else
      let st1 := push st node s e
      if l ≤ s ∧ e ≤ r then (st1, st1.tree node)
      else
        let mid := s + (e - s) / 2
        let q1 := queryGo fuel st1 (2 * node) s mid l r
        let q2 := queryGo fuel q1.1 (2 * node + 1) (mid + 1) e l r
        (q2.1, q1.2 + q2.2)

/-- `SegmentTree::query_recursive` (lines 81-99): the fuelled recursion run
with sufficient fuel. -/
def query_recursive (st : SegmentTree) (node : ℕ) (s e l r : ℤ) :
    SegmentTree × ℤ :=
  queryGo ((e - s).toNat + 1) st node s e l r

/-- The C++ constructor `SegmentTree(arr)` (lines 106-112): record
`n = arr.size()`; if `n = 0` skip allocation and build; otherwise both arrays
start zero-filled (`resize` value-initialises) and the tree is built over
`[0, n-1]` from the root. -/
def construct (arr : List ℤ) : SegmentTree :=
  let n := arr.length
  if n = 0 then { tree := fun _ => 0, lazy := fun _ => 0, n := n }
  else
    build_recursive arr { tree := fun _ => 0, lazy := fun _ => 0, n := n }
      ROOT_NODE 0 ((n : ℤ) - 1)

/-- `SegmentTree::updateRange` (lines 117-122): silently ignore invalid
ranges, otherwise update through the root. -/
def updateRange (st : SegmentTree) (l r v : ℤ) : SegmentTree :=
  if st.n = 0 ∨ l < 0 ∨ r ≥ (st.n : ℤ) ∨ l > r then st
  else update_recursive st ROOT_NODE 0 ((st.n : ℤ) - 1) l r v

/-- `SegmentTree::queryRange` (lines 127-132): return 0 on invalid ranges,
otherwise query through the root.  Returns the mutated state and the sum. -/
def queryRange (st : SegmentTree) (l r : ℤ) : SegmentTree × ℤ :=
  if st.n = 0 ∨ l < 0 ∨ r ≥ (st.n : ℤ) ∨ l > r then (st, 0)
  else query_recursive st ROOT_NODE 0 ((st.n : ℤ) - 1) l r

/-! ### Sanity checks against the embedded C++ test harness
(`runSegmentTreeTests`, lines 136-204). -/

example : (queryRange (construct [1, 2, 3, 4, 5]) 0 4).2 = 15 := by decide
example : (queryRange (construct [1, 2, 3, 4, 5]) 1 3).2 = 9 := by decide
example : (queryRange (construct [1, 2, 3, 4, 5]) 0 0).2 = 1 := by decide
example : (queryRange (updateRange (construct [1, 2, 3, 4, 5]) 1 3 10) 0 4).2 = 45 := by
  decide
example : (queryRange (updateRange (construct [1, 2, 3, 4, 5]) 1 3 10) 1 3).2 = 39 := by
  decide
example : (queryRange (updateRange (construct [1, 2, 3, 4, 5]) 1 3 10) 0 1).2 = 13 := by
  decide
example :
    (queryRange (updateRange (updateRange (construct [1, 2, 3, 4, 5, 6, 7, 8]) 0 7 1)
      2 5 (-2)) 0 7).2 = 36 := by decide
example :
    (queryRange (updateRange (updateRange (construct [1, 2, 3, 4, 5, 6, 7, 8]) 0 7 1)
      2 5 (-2)) 2 5).2 = 14 := by decide
example : (queryRange (construct [1, 2, 3]) (-1) 1).2 = 0 := by decide
example : (queryRange (updateRange (construct [1, 2, 3]) 2 5 5) 0 2).2 = 6 := by decide

/-! ### Heap-index descendant relation

Node `j` lies in the subtree of node `a` (in the implicit layout with
children at `2*i` and `2*i+1`) exactly when repeatedly halving `j` reaches
`a`.  This is used for frame reasoning: each recursive routine writes only
inside the subtree it was called on. -/

/-- `j` is `a` itself or a descendant of `a` in the implicit binary heap
layout. -/
def isDesc (a j : ℕ) : Prop := ∃ k, j / 2 ^ k = a

lemma isDesc_self (a : ℕ) : isDesc a a := ⟨0, by simp⟩

lemma isDesc_le {a j : ℕ} (h : isDesc a j) : a ≤ j := by
  obtain ⟨k, hk⟩ := h
  exact hk ▸ Nat.div_le_self j (2 ^ k)

lemma isDesc_left (a : ℕ) : isDesc a (2 * a) :=
  ⟨1, by rw [pow_one]; omega⟩

lemma isDesc_right (a : ℕ) : isDesc a (2 * a + 1) :=
  ⟨1, by rw [pow_one]; omega⟩

lemma isDesc_of_left {a j : ℕ} (h : isDesc (2 * a) j) : isDesc a j := by
  obtain ⟨k, hk⟩ := h
  refine ⟨k + 1, ?_⟩
  rw [pow_succ, ← Nat.div_div_eq_div_mul, hk]
  omega

lemma isDesc_of_right {a j : ℕ} (h : isDesc (2 * a + 1) j) : isDesc a j := by
  obtain ⟨k, hk⟩ := h
  refine ⟨k + 1, ?_⟩
  rw [pow_succ, ← Nat.div_div_eq_div_mul, hk]
  omega

/-- The two children's subtrees are disjoint (for a genuine node `1 ≤ a`). -/
lemma isDesc_sibling {a j : ℕ} (ha : 1 ≤ a) (h1 : isDesc (2 * a) j)
    (h2 : isDesc (2 * a + 1) j) : False := by
  obtain ⟨k, hk⟩ := h1
  obtain ⟨m, hm⟩ := h2
  rcases le_or_lt k m with hkm | hmk
  · have hkm' : k + (m - k) = m := by omega
    have hid : j / 2 ^ m = j / 2 ^ k / 2 ^ (m - k) := by
      rw [Nat.div_div_eq_div_mul, ← pow_add, hkm']
    rw [hm, hk] at hid
    have hle : 2 * a / 2 ^ (m - k) ≤ 2 * a := Nat.div_le_self _ _
    omega
  · have hmk' : m + (k - m) = k := by omega
    have hid : j / 2 ^ k = j / 2 ^ m / 2 ^ (k - m) := by
      rw [Nat.div_div_eq_div_mul, ← pow_add, hmk']
    rw [hk, hm] at hid
    have h2d : 2 ≤ 2 ^ (k - m) := by
      calc 2 = 2 ^ 1 := (pow_one 2).symm
        _ ≤ 2 ^ (k - m) := Nat.pow_le_pow_right (by norm_num) (by omega)
    have hle : (2 * a + 1) / 2 ^ (k - m) ≤ (2 * a + 1) / 2 :=
      Nat.div_le_div_left h2d (by norm_num)
    have h12 : (2 * a + 1) / 2 = a := by omega
    omega

lemma not_isDesc_left_self {a : ℕ} (ha : 1 ≤ a) : ¬ isDesc (2 * a) a := by
  intro h
  have := isDesc_le h
  omega

lemma not_isDesc_right_self {a : ℕ} (ha : 1 ≤ a) : ¬ isDesc (2 * a + 1) a := by
  intro h
  have := isDesc_le h
  omega

/-! ### Interval-sum helpers -/

lemma sum_Icc_split (f : ℤ → ℤ) {s m e : ℤ} (h1 : s ≤ m) (h2 : m ≤ e) :
    (∑ i ∈ Finset.Icc s e, f i) =
      (∑ i ∈ Finset.Icc s m, f i) + ∑ i ∈ Finset.Icc (m + 1) e, f i := by
  have hun : Finset.Icc s e = Finset.Icc s m ∪ Finset.Icc (m + 1) e := by
    ext i
    simp only [Finset.mem_Icc, Finset.mem_union]
    omega
  have hdis : Disjoint (Finset.Icc s m) (Finset.Icc (m + 1) e) := by
    rw [Finset.disjoint_left]
    intro i hi hj
    simp only [Finset.mem_Icc] at hi hj
    omega
  rw [hun, Finset.sum_union hdis]

lemma sum_Icc_add_const (f : ℤ → ℤ) {s e : ℤ} (v : ℤ) (h : s ≤ e) :
    (∑ i ∈ Finset.Icc s e, (f i + v)) =
      (∑ i ∈ Finset.Icc s e, f i) + (e - s + 1) * v := by
  rw [Finset.sum_add_distrib, Finset.sum_const, Int.card_Icc, nsmul_eq_mul]
  have hc : ((e + 1 - s).toNat : ℤ) = e - s + 1 := by omega
  rw [hc]

lemma sum_Icc_congr {f g : ℤ → ℤ} {s e : ℤ}
    (h : ∀ i, s ≤ i → i ≤ e → f i = g i) :
    (∑ i ∈ Finset.Icc s e, f i) = ∑ i ∈ Finset.Icc s e, g i := by
  refine Finset.sum_congr rfl ?_
  intro i hi
  rw [Finset.mem_Icc] at hi
  exact h i hi.1 hi.2

/-! ### The representation invariant

`ReprN st node s e acc f` says: the subtree rooted at `node`, covering index
range `[s, e]`, faithfully represents the abstract array `f` on `[s, e]`,
given that the pending deltas stored at the *proper ancestors* of `node` sum
to `acc`.  Concretely, for every node `x` of the subtree with covered range
`[s', e']`, the stored aggregate satisfies
`tree[x] + (e' - s' + 1) * (lazy[x] + pending-above-x) = Σ_{i ∈ [s', e']} f i`:
a node's aggregate excludes its own pending delta and everything pending
above it. -/
def ReprN (st : SegmentTree) (node : ℕ) (s e acc : ℤ) (f : ℤ → ℤ) : Prop :=
  (s ≤ e →
    st.tree node + (e - s + 1) * (st.lazy node + acc) = ∑ i ∈ Finset.Icc s e, f i) ∧
  (s < e →
    ReprN st (2 * node) s (s + (e - s) / 2) (st.lazy node + acc) f ∧
    ReprN st (2 * node + 1) (s + (e - s) / 2 + 1) e (st.lazy node + acc) f)
termination_by (e - s).toNat
decreasing_by
  · omega
  · omega

lemma ReprN_def (st : SegmentTree) (node : ℕ) (s e acc : ℤ) (f : ℤ → ℤ) :
    ReprN st node s e acc f ↔
      ((s ≤ e →
        st.tree node + (e - s + 1) * (st.lazy node + acc) =
          ∑ i ∈ Finset.Icc s e, f i) ∧
      (s < e →
        ReprN st (2 * node) s (s + (e - s) / 2) (st.lazy node + acc) f ∧
        ReprN st (2 * node + 1) (s + (e - s) / 2 + 1) e (st.lazy node + acc) f)) := by
  rw [ReprN]

/-! ### Projection helpers for single-cell writes -/

lemma setTree_tree_self (st : SegmentTree) (i : ℕ) (x : ℤ) :
    (setTree st i x).tree i = x := by
  simp [setTree]

lemma setTree_tree_other (st : SegmentTree) {i j : ℕ} (x : ℤ) (h : j ≠ i) :
    (setTree st i x).tree j = st.tree j := by
  simp [setTree, Function.update_noteq h]

lemma setTree_lazy (st : SegmentTree) (i : ℕ) (x : ℤ) :
    (setTree st i x).lazy = st.lazy := rfl

lemma setTree_n (st : SegmentTree) (i : ℕ) (x : ℤ) :
    (setTree st i x).n = st.n := rfl

lemma setLazy_lazy_self (st : SegmentTree) (i : ℕ) (x : ℤ) :
    (setLazy st i x).lazy i = x := by
  simp [setLazy]

lemma setLazy_lazy_other (st : SegmentTree) {i j : ℕ} (x : ℤ) (h : j ≠ i) :
    (setLazy st i x).lazy j = st.lazy j := by
  simp [setLazy, Function.update_noteq h]

lemma setLazy_tree (st : SegmentTree) (i : ℕ) (x : ℤ) :
    (setLazy st i x).tree = st.tree := rfl

lemma setLazy_n (st : SegmentTree) (i : ℕ) (x : ℤ) :
    (setLazy st i x).n = st.n := rfl

/-- `st'` agrees with `st` on every cell in the subtree of `node`. -/
def agreeOn (node : ℕ) (st st' : SegmentTree) : Prop :=
  ∀ j, isDesc node j → st'.tree j = st.tree j ∧ st'.lazy j = st.lazy j

/-- `ReprN` only depends on the cells of the subtree it speaks about. -/
lemma ReprN_congr_state :
    ∀ (m : ℕ) {st st' : SegmentTree} {node : ℕ} {s e acc : ℤ} {f : ℤ → ℤ},
    (e - s).toNat ≤ m → agreeOn node st st' →
    ReprN st node s e acc f → ReprN st' node s e acc f := by
  intro m
  induction m with
  | zero =>
    intro st st' node s e acc f hm hagree h
    rw [ReprN_def] at h ⊢
    refine ⟨?_, ?_⟩
    · intro hse
      rw [(hagree node (isDesc_self node)).1, (hagree node (isDesc_self node)).2]
      exact h.1 hse
    · intro hlt
      omega
  | succ m ih =>
    intro st st' node s e acc f hm hagree h
    rw [ReprN_def] at h ⊢
    refine ⟨?_, ?_⟩
    · intro hse
      rw [(hagree node (isDesc_self node)).1, (hagree node (isDesc_self node)).2]
      exact h.1 hse
    · intro hlt
      obtain ⟨hL, hR⟩ := h.2 hlt
      have hlz := (hagree node (isDesc_self node)).2
      rw [hlz]
      exact ⟨ih (by omega) (fun j hj => hagree j (isDesc_of_left hj)) hL,
        ih (by omega) (fun j hj => hagree j (isDesc_of_right hj)) hR⟩

/-- Convenient form of `ReprN_congr_state`. -/
lemma ReprN_congr {st st' : SegmentTree} {node : ℕ} {s e acc : ℤ} {f : ℤ → ℤ}
    (hagree : agreeOn node st st') (h : ReprN st node s e acc f) :
    ReprN st' node s e acc f :=
  ReprN_congr_state (e - s).toNat le_rfl hagree h

/-- `ReprN` only depends on the abstract array restricted to `[s, e]`. -/
lemma ReprN_congr_fun :
    ∀ (m : ℕ) {st : SegmentTree} {node : ℕ} {s e acc : ℤ} {f g : ℤ → ℤ},
    (e - s).toNat ≤ m → (∀ i, s ≤ i → i ≤ e → f i = g i) →
    ReprN st node s e acc f → ReprN st node s e acc g := by
  intro m
  induction m with
  | zero =>
    intro st node s e acc f g hm hfg h
    rw [ReprN_def] at h ⊢
    refine ⟨fun hse => ?_, fun hlt => by omega⟩
    rw [← sum_Icc_congr hfg]
    exact h.1 hse
  | succ m ih =>
    intro st node s e acc f g hm hfg h
    rw [ReprN_def] at h ⊢
    refine ⟨fun hse => ?_, fun hlt => ?_⟩
    · rw [← sum_Icc_congr hfg]
      exact h.1 hse
    · obtain ⟨hL, hR⟩ := h.2 hlt
      exact ⟨ih (by omega) (fun i h1 h2 => hfg i h1 (by omega)) hL,
        ih (by omega) (fun i h1 h2 => hfg i (by omega) h2) hR⟩

/-- Adding `v` to the pending-above sum is the same as adding `v` to every
abstract entry of the covered range. -/
lemma ReprN_add :
    ∀ (m : ℕ) {st : SegmentTree} {node : ℕ} {s e acc v : ℤ} {f g : ℤ → ℤ},
    (e - s).toNat ≤ m → (∀ i, s ≤ i → i ≤ e → g i = f i + v) →
    ReprN st node s e acc f → ReprN st node s e (acc + v) g := by
  intro m
  induction m with
  | zero =>
    intro st node s e acc v f g hm hfg h
    rw [ReprN_def] at h ⊢
    refine ⟨fun hse => ?_, fun hlt => by omega⟩
    have htop := h.1 hse
    have hsum : (∑ i ∈ Finset.Icc s e, g i) =
        (∑ i ∈ Finset.Icc s e, f i) + (e - s + 1) * v := by
      rw [sum_Icc_congr hfg, sum_Icc_add_const f v hse]
    rw [hsum]
    linear_combination htop
  | succ m ih =>
    intro st node s e acc v f g hm hfg h
    rw [ReprN_def] at h ⊢
    refine ⟨fun hse => ?_, fun hlt => ?_⟩
    · have htop := h.1 hse
      have hsum : (∑ i ∈ Finset.Icc s e, g i) =
          (∑ i ∈ Finset.Icc s e, f i) + (e - s + 1) * v := by
        rw [sum_Icc_congr hfg, sum_Icc_add_const f v hse]
      rw [hsum]
      linear_combination htop
    · obtain ⟨hL, hR⟩ := h.2 hlt
      have ha : st.lazy node + (acc + v) = (st.lazy node + acc) + v := by ring
      rw [ha]
      exact ⟨ih (by omega) (fun i h1 h2 => hfg i h1 (by omega)) hL,
        ih (by omega) (fun i h1 h2 => hfg i (by omega) h2) hR⟩

/-- Moving a pending amount `v` from above `node` into `node`'s own pending
slot preserves the representation. -/
lemma ReprN_shift {st : SegmentTree} {node : ℕ} {s e acc v : ℤ} {f : ℤ → ℤ}
    (hnode : 1 ≤ node) (h : ReprN st node s e (acc + v) f) :
    ReprN (setLazy st node (st.lazy node + v)) node s e acc f := by
  rw [ReprN_def] at h ⊢
  refine ⟨fun hse => ?_, fun hlt => ?_⟩
  · have htop := h.1 hse
    rw [setLazy_tree, setLazy_lazy_self]
    linear_combination htop
  · obtain ⟨hL, hR⟩ := h.2 hlt
    rw [setLazy_lazy_self]
    have hagL : agreeOn (2 * node) st (setLazy st node (st.lazy node + v)) := by
      intro j hj
      have hjge := isDesc_le hj
      refine ⟨rfl, setLazy_lazy_other st _ (by omega)⟩
    have hagR : agreeOn (2 * node + 1) st (setLazy st node (st.lazy node + v)) := by
      intro j hj
      have hjge := isDesc_le hj
      refine ⟨rfl, setLazy_lazy_other st _ (by omega)⟩
    have haccL : st.lazy node + v + acc = st.lazy node + (acc + v) := by ring
    rw [haccL]
    exact ⟨ReprN_congr hagL hL, ReprN_congr hagR hR⟩

/-! ### Properties of `push` -/

/-- After `push`, the pending slot of the pushed node is clear. -/
lemma push_lazy_self (st : SegmentTree) (node : ℕ) (s e : ℤ) :
    (push st node s e).lazy node = 0 := by
  by_cases h0 : st.lazy node = 0 <;> by_cases hse : s = e <;>
    simp [push, h0, hse, setLazy_lazy_self]

lemma push_n (st : SegmentTree) (node : ℕ) (s e : ℤ) :
    (push st node s e).n = st.n := by
  by_cases h0 : st.lazy node = 0 <;> by_cases hse : s = e <;>
    simp [push, h0, hse, setLazy_n, setTree_n]

/-- `push` writes only inside the subtree of `node` (cells `node`, `2*node`,
`2*node+1`). -/
lemma push_frame (st : SegmentTree) (node : ℕ) (s e : ℤ) {j : ℕ}
    (hj : ¬ isDesc node j) :
    (push st node s e).tree j = st.tree j ∧
      (push st node s e).lazy j = st.lazy j := by
  have hj1 : j ≠ node := fun h => hj (h ▸ isDesc_self node)
  have hj2 : j ≠ 2 * node := fun h => hj (h ▸ isDesc_left node)
  have hj3 : j ≠ 2 * node + 1 := fun h => hj (h ▸ isDesc_right node)
  by_cases h0 : st.lazy node = 0 <;> by_cases hse : s = e <;>
    simp [push, h0, hse, setLazy_lazy_other, setTree_tree_other, setLazy_tree,
      setTree_lazy, hj1, hj2, hj3]

/-- `push` preserves the representation invariant of the pushed node. -/
lemma push_ReprN {st : SegmentTree} {node : ℕ} {s e acc : ℤ} {f : ℤ → ℤ}
    (hnode : 1 ≤ node) (h : ReprN st node s e acc f) :
    ReprN (push st node s e) node s e acc f := by
  by_cases h0 : st.lazy node = 0
  · have hid : push st node s e = st := by simp [push, h0]
    rw [hid]
    exact h
  · by_cases hse : s = e
    · -- leaf: only the aggregate is touched, pending moved into it
      have hid : push st node s e =
          setLazy (setTree st node (st.tree node + st.lazy node * (e - s + 1)))
            node 0 := by
        simp [push, h0, hse]
      rw [hid, ReprN_def]
      refine ⟨fun hse2 => ?_, fun hlt => by omega⟩
      have htop := (ReprN_def st node s e acc f).1 h |>.1 hse2
      rw [setLazy_lazy_self, setLazy_tree, setTree_tree_self]
      linear_combination htop
    · -- internal node: pending folded in and forwarded to both children
      set L := st.lazy node with hL
      set st1 := setTree st node (st.tree node + st.lazy node * (e - s + 1))
        with hst1
      set stL := setLazy st1 (2 * node) (st1.lazy (2 * node) + st1.lazy node)
        with hstL
      set stR := setLazy stL (2 * node + 1)
        (stL.lazy (2 * node + 1) + stL.lazy node) with hstR
      have hid : push st node s e = setLazy stR node 0 := by
        simp [push, h0, hse, hst1, hstL, hstR]
      have h1lazy : st1.lazy = st.lazy := rfl
      have hLlazy_node : stL.lazy node = st.lazy node := by
        rw [hstL, h1lazy]
        exact setLazy_lazy_other st _ (by omega)
      have hRlazy_node : stR.lazy node = st.lazy node := by
        rw [hstR]
        rw [setLazy_lazy_other stL _ (by omega), hLlazy_node]
      rw [hid, ReprN_def]
      refine ⟨fun hse2 => ?_, fun hlt => ?_⟩
      · have htop := (ReprN_def st node s e acc f).1 h |>.1 hse2
        have htr : (setLazy stR node 0).tree node = st.tree node +
            st.lazy node * (e - s + 1) := by
          rw [setLazy_tree, hstR, setLazy_tree, hstL, setLazy_tree, hst1,
            setTree_tree_self]
        rw [htr, setLazy_lazy_self]
        linear_combination htop
      · have hch := (ReprN_def st node s e acc f).1 h |>.2 hlt
        obtain ⟨hchL, hchR⟩ := hch
        rw [setLazy_lazy_self]
        have hacc0 : (0 : ℤ) + acc = acc := by ring
        rw [hacc0]
        constructor
        · -- left child: st → st1 (congr) → stL (shift) → final (congr)
          have s1 : ReprN st1 (2 * node) s (s + (e - s) / 2) (acc + L) f := by
            have hag : agreeOn (2 * node) st st1 := by
              intro j hj
              have := isDesc_le hj
              exact ⟨setTree_tree_other st _ (by omega), rfl⟩
            have haccc : st.lazy node + acc = acc + L := by rw [hL]; ring
            rw [haccc] at hchL
            exact ReprN_congr hag hchL
          have s2 : ReprN (setLazy st1 (2 * node) (st1.lazy (2 * node) + L))
              (2 * node) s (s + (e - s) / 2) acc f :=
            ReprN_shift (by omega) s1
          have s3 : ReprN stL (2 * node) s (s + (e - s) / 2) acc f := by
            have : stL = setLazy st1 (2 * node) (st1.lazy (2 * node) + L) := by
              rw [hstL, h1lazy, hL]
            rw [this]
            exact s2
          refine ReprN_congr ?_ s3
          intro j hj
          have hjge := isDesc_le hj
          have hjne : j ≠ 2 * node + 1 := by
            intro hjeq
            exact isDesc_sibling hnode hj (hjeq ▸ isDesc_self (2 * node + 1))
          refine ⟨rfl, ?_⟩
          rw [setLazy_lazy_other _ _ (by omega : j ≠ node), hstR,
            setLazy_lazy_other _ _ hjne]
        · -- right child: st → stL (congr) → stR (shift) → final (congr)
          have s1 : ReprN stL (2 * node + 1) (s + (e - s) / 2 + 1) e (acc + L)
              f := by
            have hag : agreeOn (2 * node + 1) st stL := by
              intro j hj
              have hjge := isDesc_le hj
              have hjne : j ≠ 2 * node := by
                intro hjeq
                exact isDesc_sibling hnode (hjeq ▸ isDesc_self (2 * node)) hj
              refine ⟨setTree_tree_other st _ (by omega), ?_⟩
              rw [hstL, setLazy_lazy_other _ _ hjne, h1lazy]
            have haccc : st.lazy node + acc = acc + L := by rw [hL]; ring
            rw [haccc] at hchR
            exact ReprN_congr hag hchR
          have s2 : ReprN (setLazy stL (2 * node + 1)
              (stL.lazy (2 * node + 1) + L)) (2 * node + 1)
              (s + (e - s) / 2 + 1) e acc f :=
            ReprN_shift (by omega) s1
          have s3 : ReprN stR (2 * node + 1) (s + (e - s) / 2 + 1) e acc f := by
            have : stR = setLazy stL (2 * node + 1)
                (stL.lazy (2 * node + 1) + L) := by
              rw [hstR, hLlazy_node, hL]
            rw [this]
            exact s2
          refine ReprN_congr ?_ s3
          intro j hj
          have hjge := isDesc_le hj
          exact ⟨rfl, setLazy_lazy_other _ _ (by omega : j ≠ node)⟩

/-! ### Frame predicate: writes confined to a subtree -/

/-- `st'` differs from `st` at most inside the subtree of `node` (and has the
same element count). -/
def framedOn (node : ℕ) (st st' : SegmentTree) : Prop :=
  st'.n = st.n ∧
    ∀ j, ¬ isDesc node j → st'.tree j = st.tree j ∧ st'.lazy j = st.lazy j

lemma framedOn_refl (node : ℕ) (st : SegmentTree) : framedOn node st st :=
  ⟨rfl, fun _ _ => ⟨rfl, rfl⟩⟩

lemma framedOn_trans {node : ℕ} {st st' st'' : SegmentTree}
    (h1 : framedOn node st st') (h2 : framedOn node st' st'') :
    framedOn node st st'' := by
  refine ⟨h2.1.trans h1.1, fun j hj => ?_⟩
  obtain ⟨t1, l1⟩ := h1.2 j hj
  obtain ⟨t2, l2⟩ := h2.2 j hj
  exact ⟨t2.trans t1, l2.trans l1⟩

lemma framedOn_of_left {node : ℕ} {st st' : SegmentTree}
    (h : framedOn (2 * node) st st') : framedOn node st st' :=
  ⟨h.1, fun j hj => h.2 j (fun hd => hj (isDesc_of_left hd))⟩

lemma framedOn_of_right {node : ℕ} {st st' : SegmentTree}
    (h : framedOn (2 * node + 1) st st') : framedOn node st st' :=
  ⟨h.1, fun j hj => h.2 j (fun hd => hj (isDesc_of_right hd))⟩

/-- A change framed on the right child leaves the left child's subtree
untouched. -/
lemma agreeOn_left_of_framed_right {node : ℕ} {st st' : SegmentTree}
    (hnode : 1 ≤ node) (h : framedOn (2 * node + 1) st st') :
    agreeOn (2 * node) st st' := by
  intro j hj
  exact h.2 j (fun hd => isDesc_sibling hnode hj hd)

/-- A change framed on the left child leaves the right child's subtree
untouched. -/
lemma agreeOn_right_of_framed_left {node : ℕ} {st st' : SegmentTree}
    (hnode : 1 ≤ node) (h : framedOn (2 * node) st st') :
    agreeOn (2 * node + 1) st st' := by
  intro j hj
  exact h.2 j (fun hd => isDesc_sibling hnode hd hj)

lemma push_framedOn (st : SegmentTree) (node : ℕ) (s e : ℤ) :
    framedOn node st (push st node s e) :=
  ⟨push_n st node s e, fun _ hj => push_frame st node s e hj⟩

/-- The abstract effect of `update_recursive` on the represented array:
adding `v` on `[l, r] ∩ [s, e]` pointwise. -/
lemma updateGo_spec :
    ∀ (fuel : ℕ) (st : SegmentTree) (node : ℕ) (s e l r v : ℤ) (f : ℤ → ℤ),
    (e - s).toNat < fuel → 1 ≤ node → s ≤ e → ReprN st node s e 0 f →
    ReprN (updateGo fuel st node s e l r v) node s e 0
        (fun i => if l ≤ i ∧ i ≤ r then f i + v else f i) ∧
      (updateGo fuel st node s e l r v).lazy node = 0 ∧
      framedOn node st (updateGo fuel st node s e l r v) := by
  intro fuel
  induction fuel with
  | zero =>
    intro st node s e l r v f hf hnode hse h
    omega
  | succ fuel ih =>
    intro st node s e l r v f hf hnode hse h
    by_cases hdis : s > e ∨ s > r ∨ e < l
    · -- Case 1: disjoint; the result is just `push st node s e`.
      have hres : updateGo (fuel + 1) st node s e l r v = push st node s e := by
        simp only [updateGo]
        rw [if_pos hdis]
      rw [hres]
      refine ⟨?_, push_lazy_self st node s e, push_framedOn st node s e⟩
      refine ReprN_congr_fun (e - s).toNat le_rfl ?_ (push_ReprN hnode h)
      intro i h1 h2
      rw [if_neg (by omega)]
    · by_cases hcon : l ≤ s ∧ e ≤ r
      · -- Case 2: fully contained.
        have hp := push_ReprN hnode h
        have hpl := push_lazy_self st node s e
        have hptop := ((ReprN_def _ _ _ _ _ _).1 hp).1 hse
        rw [hpl] at hptop
        have hsum : (∑ i ∈ Finset.Icc s e,
            (fun i => if l ≤ i ∧ i ≤ r then f i + v else f i) i) =
            (∑ i ∈ Finset.Icc s e, f i) + (e - s + 1) * v := by
          rw [sum_Icc_congr (g := fun i => f i + v)
            (fun i h1 h2 => by rw [if_pos (by omega)]),
            sum_Icc_add_const f v hse]
        by_cases hleaf : s = e
        · -- contained leaf
          have hres : updateGo (fuel + 1) st node s e l r v =
              setTree (push st node s e) node
                ((push st node s e).tree node + v * (e - s + 1)) := by
            simp only [updateGo]
            rw [if_neg hdis, if_pos hcon]
            simp [hleaf]
          rw [hres]
          refine ⟨?_, ?_, ?_⟩
          · rw [ReprN_def]
            refine ⟨fun hse2 => ?_, fun hlt => by omega⟩
            rw [setTree_tree_self, setTree_lazy, hpl, hsum]
            linear_combination hptop
          · rw [setTree_lazy, hpl]
          · refine framedOn_trans (push_framedOn st node s e) ⟨rfl, ?_⟩
            intro j hj
            have hj1 : j ≠ node := fun hc => hj (hc ▸ isDesc_self node)
            exact ⟨setTree_tree_other _ _ hj1, rfl⟩
        · -- contained internal node: defer `v` into both children
          have hslt : s < e := by omega
          set stp := push st node s e with hstp
          set st2 := setTree stp node (stp.tree node + v * (e - s + 1))
            with hst2
          set stA := setLazy st2 (2 * node) (st2.lazy (2 * node) + v) with hstA
          set stB := setLazy stA (2 * node + 1) (stA.lazy (2 * node + 1) + v)
            with hstB
          have hres : updateGo (fuel + 1) st node s e l r v = stB := by
            simp only [updateGo]
            rw [if_neg hdis, if_pos hcon]
            simp [hleaf, hstp, hst2, hstA, hstB]
          have h2lazy : st2.lazy = stp.lazy := rfl
          have hAlazy_node : stA.lazy node = 0 := by
            rw [hstA, setLazy_lazy_other _ _ (by omega), h2lazy, hpl]
          have hBlazy_node : stB.lazy node = 0 := by
            rw [hstB, setLazy_lazy_other _ _ (by omega), hAlazy_node]
          have hch := ((ReprN_def _ _ _ _ _ _).1 hp).2 hslt
          have hchL : ReprN stp (2 * node) s (s + (e - s) / 2) 0 f := by
            have := hch.1
            rw [hpl, zero_add] at this
            exact this
          have hchR : ReprN stp (2 * node + 1) (s + (e - s) / 2 + 1) e 0 f := by
            have := hch.2
            rw [hpl, zero_add] at this
            exact this
          -- left child chain
          have c1 : ReprN st2 (2 * node) s (s + (e - s) / 2) 0 f := by
            refine ReprN_congr ?_ hchL
            intro j hj
            have := isDesc_le hj
            exact ⟨setTree_tree_other _ _ (by omega), rfl⟩
          have c2 : ReprN st2 (2 * node) s (s + (e - s) / 2) (0 + v)
              (fun i => if l ≤ i ∧ i ≤ r then f i + v else f i) := by
            refine ReprN_add _ le_rfl ?_ c1
            intro i h1 h2
            rw [if_pos (by omega)]
          have c3 : ReprN stA (2 * node) s (s + (e - s) / 2) 0
              (fun i => if l ≤ i ∧ i ≤ r then f i + v else f i) := by
            rw [hstA]
            exact ReprN_shift (by omega) c2
          have c4 : ReprN stB (2 * node) s (s + (e - s) / 2) 0
              (fun i => if l ≤ i ∧ i ≤ r then f i + v else f i) := by
            refine ReprN_congr ?_ c3
            intro j hj
            have hjne : j ≠ 2 * node + 1 := fun hc =>
              isDesc_sibling hnode hj (hc ▸ isDesc_self (2 * node + 1))
            exact ⟨rfl, setLazy_lazy_other _ _ hjne⟩
          -- right child chain
          have d1 : ReprN stA (2 * node + 1) (s + (e - s) / 2 + 1) e 0 f := by
            refine ReprN_congr ?_ hchR
            intro j hj
            have hjge := isDesc_le hj
            have hjne : j ≠ 2 * node := fun hc =>
              isDesc_sibling hnode (hc ▸ isDesc_self (2 * node)) hj
            refine ⟨setTree_tree_other _ _ (by omega), ?_⟩
            rw [hstA, setLazy_lazy_other _ _ hjne, h2lazy]
          have d2 : ReprN stA (2 * node + 1) (s + (e - s) / 2 + 1) e (0 + v)
              (fun i => if l ≤ i ∧ i ≤ r then f i + v else f i) := by
            refine ReprN_add _ le_rfl ?_ d1
            intro i h1 h2
            rw [if_pos (by omega)]
          have d3 : ReprN stB (2 * node + 1) (s + (e - s) / 2 + 1) e 0
              (fun i => if l ≤ i ∧ i ≤ r then f i + v else f i) := by
            rw [hstB]
            exact ReprN_shift (by omega) d2
          rw [hres]
          refine ⟨?_, hBlazy_node, ?_⟩
          · rw [ReprN_def]
            refine ⟨fun hse2 => ?_, fun hlt => ?_⟩
            · have htr : stB.tree node = stp.tree node + v * (e - s + 1) := by
                rw [hstB, setLazy_tree, hstA, setLazy_tree, hst2,
                  setTree_tree_self]
              rw [htr, hBlazy_node, hsum]
              linear_combination hptop
            · rw [hBlazy_node, zero_add]
              exact ⟨c4, d3⟩
          · refine framedOn_trans (push_framedOn st node s e) ⟨rfl, ?_⟩
            intro j hj
            have hj1 : j ≠ node := fun hc => hj (hc ▸ isDesc_self node)
            have hj2 : j ≠ 2 * node := fun hc => hj (hc ▸ isDesc_left node)
            have hj3 : j ≠ 2 * node + 1 := fun hc => hj (hc ▸ isDesc_right node)
            refine ⟨?_, ?_⟩
            · rw [hstB, setLazy_tree, hstA, setLazy_tree, hst2,
                setTree_tree_other _ _ hj1]
            · rw [hstB, setLazy_lazy_other _ _ hj3, hstA,
                setLazy_lazy_other _ _ hj2, h2lazy]
      · -- Case 3: partial overlap; recurse on both halves and recombine.
        have hslt : s < e := by omega
        set stp := push st node s e with hstp
        have hp := push_ReprN hnode h
        have hpl := push_lazy_self st node s e
        have hch := ((ReprN_def _ _ _ _ _ _).1 hp).2 hslt
        have hchL : ReprN stp (2 * node) s (s + (e - s) / 2) 0 f := by
          have := hch.1
          rw [hpl, zero_add] at this
          exact this
        have hchR : ReprN stp (2 * node + 1) (s + (e - s) / 2 + 1) e 0 f := by
          have := hch.2
          rw [hpl, zero_add] at this
          exact this
        set st2 := updateGo fuel stp (2 * node) s (s + (e - s) / 2) l r v
          with hst2
        set st3 := updateGo fuel st2 (2 * node + 1) (s + (e - s) / 2 + 1) e
          l r v with hst3
        have hres : updateGo (fuel + 1) st node s e l r v =
            setTree st3 node (st3.tree (2 * node) + st3.tree (2 * node + 1)) := by
          simp only [updateGo]
          rw [if_neg hdis, if_neg hcon]
        obtain ⟨ihL1, ihL2, ihL3⟩ :=
          ih stp (2 * node) s (s + (e - s) / 2) l r v f
            (by omega) (by omega) (by omega) hchL
        have hchR2 : ReprN st2 (2 * node + 1) (s + (e - s) / 2 + 1) e 0 f :=
          ReprN_congr (agreeOn_right_of_framed_left hnode ihL3) hchR
        obtain ⟨ihR1, ihR2, ihR3⟩ :=
          ih st2 (2 * node + 1) (s + (e - s) / 2 + 1) e l r v f
            (by omega) (by omega) (by omega) hchR2
        have hL3 : ReprN st3 (2 * node) s (s + (e - s) / 2) 0
            (fun i => if l ≤ i ∧ i ≤ r then f i + v else f i) :=
          ReprN_congr (agreeOn_left_of_framed_right hnode ihR3) ihL1
        have hlz2 : st2.lazy (2 * node) = 0 := ihL2
        have hlz2' : st3.lazy (2 * node) = 0 := by
          rw [(ihR3.2 (2 * node) (fun hd => by
            have := isDesc_le hd
            omega)).2, hlz2]
        have hlznode2 : st2.lazy node = 0 := by
          rw [(ihL3.2 node (not_isDesc_left_self hnode)).2, hstp, hpl]
        have hlznode3 : st3.lazy node = 0 := by
          rw [(ihR3.2 node (not_isDesc_right_self hnode)).2, hlznode2]
        have htr2 : st3.tree (2 * node) = st2.tree (2 * node) :=
          (ihR3.2 (2 * node) (fun hd => by
            have := isDesc_le hd
            omega)).1
        have hsumL : st2.tree (2 * node) = ∑ i ∈ Finset.Icc s (s + (e - s) / 2),
            (fun i => if l ≤ i ∧ i ≤ r then f i + v else f i) i := by
          have := ((ReprN_def _ _ _ _ _ _).1 ihL1).1 (by omega)
          rw [hlz2] at this
          linear_combination this
        have hsumR : st3.tree (2 * node + 1) =
            ∑ i ∈ Finset.Icc (s + (e - s) / 2 + 1) e,
              (fun i => if l ≤ i ∧ i ≤ r then f i + v else f i) i := by
          have := ((ReprN_def _ _ _ _ _ _).1 ihR1).1 (by omega)
          rw [ihR2] at this
          linear_combination this
        rw [hres]
        refine ⟨?_, ?_, ?_⟩
        · rw [ReprN_def]
          refine ⟨fun hse2 => ?_, fun hlt => ?_⟩
          · rw [setTree_tree_self, setTree_lazy, hlznode3, htr2, hsumL, hsumR,
              ← sum_Icc_split _ (by omega) (by omega)]
            ring
          · rw [setTree_lazy, hlznode3, zero_add]
            constructor
            · refine ReprN_congr ?_ hL3
              intro j hj
              have := isDesc_le hj
              exact ⟨setTree_tree_other _ _ (by omega), rfl⟩
            · refine ReprN_congr ?_ ihR1
              intro j hj
              have := isDesc_le hj
              exact ⟨setTree_tree_other _ _ (by omega), rfl⟩
        · rw [setTree_lazy, hlznode3]
        · refine framedOn_trans (push_framedOn st node s e)
            (framedOn_trans (framedOn_of_left ihL3)
              (framedOn_trans (framedOn_of_right ihR3) ⟨rfl, ?_⟩))
          intro j hj
          have hj1 : j ≠ node := fun hc => hj (hc ▸ isDesc_self node)
          exact ⟨setTree_tree_other _ _ hj1, rfl⟩

lemma Icc_inter_of_subset {s e l r : ℤ} (h1 : l ≤ s) (h2 : e ≤ r) :
    Finset.Icc s e ∩ Finset.Icc l r = Finset.Icc s e := by
  ext i
  simp only [Finset.mem_inter, Finset.mem_Icc]
  omega

lemma Icc_inter_of_disjoint {s e l r : ℤ} (h : s > r ∨ e < l) :
    Finset.Icc s e ∩ Finset.Icc l r = ∅ := by
  ext i
  simp only [Finset.mem_inter, Finset.mem_Icc, Finset.not_mem_empty, iff_false,
    not_and]
  omega

lemma sum_Icc_inter_split (f : ℤ → ℤ) {s m e : ℤ} (l r : ℤ) (h1 : s ≤ m)
    (h2 : m ≤ e) :
    (∑ i ∈ Finset.Icc s e ∩ Finset.Icc l r, f i) =
      (∑ i ∈ Finset.Icc s m ∩ Finset.Icc l r, f i) +
        ∑ i ∈ Finset.Icc (m + 1) e ∩ Finset.Icc l r, f i := by
  have hun : Finset.Icc s e ∩ Finset.Icc l r =
      (Finset.Icc s m ∩ Finset.Icc l r) ∪
        (Finset.Icc (m + 1) e ∩ Finset.Icc l r) := by
    ext i
    simp only [Finset.mem_inter, Finset.mem_Icc, Finset.mem_union]
    omega
  have hdis : Disjoint (Finset.Icc s m ∩ Finset.Icc l r)
      (Finset.Icc (m + 1) e ∩ Finset.Icc l r) := by
    rw [Finset.disjoint_left]
    intro i hi hj
    simp only [Finset.mem_inter, Finset.mem_Icc] at hi hj
    omega
  rw [hun, Finset.sum_union hdis]

/-- The abstract effect of `query_recursive`: the represented array is
untouched, writes stay inside the subtree, and the returned value is the sum
of the represented array over `[s, e] ∩ [l, r]`. -/
lemma queryGo_spec :
    ∀ (fuel : ℕ) (st : SegmentTree) (node : ℕ) (s e l r : ℤ) (f : ℤ → ℤ),
    (e - s).toNat < fuel → 1 ≤ node → s ≤ e → ReprN st node s e 0 f →
    ReprN (queryGo fuel st node s e l r).1 node s e 0 f ∧
      (queryGo fuel st node s e l r).2 =
        (∑ i ∈ Finset.Icc s e ∩ Finset.Icc l r, f i) ∧
      framedOn node st (queryGo fuel st node s e l r).1 := by
  intro fuel
  induction fuel with
  | zero =>
    intro st node s e l r f hf hnode hse h
    omega
  | succ fuel ih =>
    intro st node s e l r f hf hnode hse h
    by_cases hdis : s > e ∨ s > r ∨ e < l
    · -- Case 1: disjoint, return 0 without touching anything.
      have hres : queryGo (fuel + 1) st node s e l r = (st, 0) := by
        simp only [queryGo]
        rw [if_pos hdis]
      rw [hres]
      refine ⟨h, ?_, framedOn_refl node st⟩
      rw [Icc_inter_of_disjoint (by omega), Finset.sum_empty]
    · by_cases hcon : l ≤ s ∧ e ≤ r
      · -- Case 2: fully contained, return the (pushed) aggregate.
        have hp := push_ReprN hnode h
        have hpl := push_lazy_self st node s e
        have hptop := ((ReprN_def _ _ _ _ _ _).1 hp).1 hse
        rw [hpl] at hptop
        have hres : queryGo (fuel + 1) st node s e l r =
            (push st node s e, (push st node s e).tree node) := by
          simp only [queryGo]
          rw [if_neg hdis, if_pos hcon]
        rw [hres]
        refine ⟨hp, ?_, push_framedOn st node s e⟩
        rw [Icc_inter_of_subset hcon.1 hcon.2]
        linear_combination hptop
      · -- Case 3: partial overlap, recurse and add.
        have hslt : s < e := by omega
        set stp := push st node s e with hstp
        have hp := push_ReprN hnode h
        have hpl := push_lazy_self st node s e
        have hptop := ((ReprN_def _ _ _ _ _ _).1 hp).1 hse
        rw [hpl] at hptop
        have hch := ((ReprN_def _ _ _ _ _ _).1 hp).2 hslt
        have hchL : ReprN stp (2 * node) s (s + (e - s) / 2) 0 f := by
          have := hch.1
          rw [hpl, zero_add] at this
          exact this
        have hchR : ReprN stp (2 * node + 1) (s + (e - s) / 2 + 1) e 0 f := by
          have := hch.2
          rw [hpl, zero_add] at this
          exact this
        set q1 := queryGo fuel stp (2 * node) s (s + (e - s) / 2) l r with hq1
        set q2 := queryGo fuel q1.1 (2 * node + 1) (s + (e - s) / 2 + 1) e l r
          with hq2
        have hres : queryGo (fuel + 1) st node s e l r = (q2.1, q1.2 + q2.2) := by
          simp only [queryGo]
          rw [if_neg hdis, if_neg hcon]
        obtain ⟨ihL1, ihL2, ihL3⟩ :=
          ih stp (2 * node) s (s + (e - s) / 2) l r f
            (by omega) (by omega) (by omega) hchL
        have hchR2 : ReprN q1.1 (2 * node + 1) (s + (e - s) / 2 + 1) e 0 f :=
          ReprN_congr (agreeOn_right_of_framed_left hnode ihL3) hchR
        obtain ⟨ihR1, ihR2, ihR3⟩ :=
          ih q1.1 (2 * node + 1) (s + (e - s) / 2 + 1) e l r f
            (by omega) (by omega) (by omega) hchR2
        have hL3 : ReprN q2.1 (2 * node) s (s + (e - s) / 2) 0 f :=
          ReprN_congr (agreeOn_left_of_framed_right hnode ihR3) ihL1
        have htrnode : q2.1.tree node = stp.tree node := by
          rw [(ihR3.2 node (not_isDesc_right_self hnode)).1,
            (ihL3.2 node (not_isDesc_left_self hnode)).1]
        have hlznode : q2.1.lazy node = 0 := by
          rw [(ihR3.2 node (not_isDesc_right_self hnode)).2,
            (ihL3.2 node (not_isDesc_left_self hnode)).2, hstp, hpl]
        rw [hres]
        refine ⟨?_, ?_, ?_⟩
        · rw [ReprN_def]
          refine ⟨fun hse2 => ?_, fun hlt => ?_⟩
          · rw [htrnode, hlznode]
            linear_combination hptop
          · rw [hlznode, zero_add]
            exact ⟨hL3, ihR1⟩
        · rw [ihL2, ihR2, ← sum_Icc_inter_split f l r (by omega) (by omega)]
        · exact framedOn_trans (push_framedOn st node s e)
            (framedOn_trans (framedOn_of_left ihL3) (framedOn_of_right ihR3))

/-- The abstract array represented immediately after construction from `arr`:
index `i` holds `arr[i]` (out-of-range indices are never consulted). -/
def initF (arr : List ℤ) : ℤ → ℤ := fun i => arr.getD i.toNat 0

/-- Build correctness: starting from any state whose pending slots are clear
on the subtree of `node`, `buildGo` makes the subtree represent `arr` on
`[s, e]`, touches no `tree` cell outside the subtree, and leaves the `lazy`
array and `n` untouched. -/
lemma buildGo_spec :
    ∀ (fuel : ℕ) (arr : List ℤ) (st : SegmentTree) (node : ℕ) (s e : ℤ),
    (e - s).toNat < fuel → 1 ≤ node → s ≤ e →
    (∀ j, isDesc node j → st.lazy j = 0) →
    ReprN (buildGo arr fuel st node s e) node s e 0 (initF arr) ∧
      (buildGo arr fuel st node s e).lazy = st.lazy ∧
      (buildGo arr fuel st node s e).n = st.n ∧
      (∀ j, ¬ isDesc node j →
        (buildGo arr fuel st node s e).tree j = st.tree j) := by
  intro fuel
  induction fuel with
  | zero =>
    intro arr st node s e hf hnode hse hlz
    omega
  | succ fuel ih =>
    intro arr st node s e hf hnode hse hlz
    by_cases hleaf : s = e
    · have hres : buildGo arr (fuel + 1) st node s e =
          setTree st node (arr.getD s.toNat 0) := by
        simp only [buildGo]
        rw [if_pos hleaf]
      rw [hres]
      refine ⟨?_, rfl, rfl, fun j hj => setTree_tree_other _ _
        (fun hc => hj (hc ▸ isDesc_self node))⟩
      rw [ReprN_def]
      refine ⟨fun hse2 => ?_, fun hlt => by omega⟩
      rw [setTree_tree_self, setTree_lazy, hlz node (isDesc_self node),
        ← hleaf, Finset.Icc_self, Finset.sum_singleton]
      show arr.getD s.toNat 0 + (s - s + 1) * (0 + 0) = initF arr s
      rw [initF]
      ring
    · have hslt : s < e := by omega
      set st1 := buildGo arr fuel st (2 * node) s (s + (e - s) / 2) with hst1
      set st2 := buildGo arr fuel st1 (2 * node + 1) (s + (e - s) / 2 + 1) e
        with hst2
      have hres : buildGo arr (fuel + 1) st node s e =
          setTree st2 node (st2.tree (2 * node) + st2.tree (2 * node + 1)) := by
        simp only [buildGo]
        rw [if_neg hleaf]
      obtain ⟨B1, B1lazy, B1n, B1tree⟩ := ih arr st (2 * node) s
        (s + (e - s) / 2) (by omega) (by omega) (by omega)
        (fun j hj => hlz j (isDesc_of_left hj))
      rw [← hst1] at B1 B1lazy B1n B1tree
      obtain ⟨B2, B2lazy, B2n, B2tree⟩ := ih arr st1 (2 * node + 1)
        (s + (e - s) / 2 + 1) e (by omega) (by omega) (by omega)
        (fun j hj => by rw [B1lazy]; exact hlz j (isDesc_of_right hj))
      rw [← hst2] at B2 B2lazy B2n B2tree
      have hL2 : ReprN st2 (2 * node) s (s + (e - s) / 2) 0 (initF arr) := by
        refine ReprN_congr ?_ B1
        intro j hj
        refine ⟨B2tree j (fun hd => isDesc_sibling hnode hj hd), ?_⟩
        rw [B2lazy]
      have hlzL : st2.lazy (2 * node) = 0 := by
        rw [B2lazy, B1lazy]
        exact hlz _ (isDesc_left node)
      have hlzR : st2.lazy (2 * node + 1) = 0 := by
        rw [B2lazy, B1lazy]
        exact hlz _ (isDesc_right node)
      have hlznode : st2.lazy node = 0 := by
        rw [B2lazy, B1lazy]
        exact hlz _ (isDesc_self node)
      have hsumL : st2.tree (2 * node) =
          ∑ i ∈ Finset.Icc s (s + (e - s) / 2), initF arr i := by
        have := ((ReprN_def _ _ _ _ _ _).1 hL2).1 (by omega)
        rw [hlzL] at this
        linear_combination this
      have hsumR : st2.tree (2 * node + 1) =
          ∑ i ∈ Finset.Icc (s + (e - s) / 2 + 1) e, initF arr i := by
        have := ((ReprN_def _ _ _ _ _ _).1 B2).1 (by omega)
        rw [hlzR] at this
        linear_combination this
      rw [hres]
      refine ⟨?_, ?_, ?_, ?_⟩
      · rw [ReprN_def]
        refine ⟨fun hse2 => ?_, fun hlt => ?_⟩
        · rw [setTree_tree_self, setTree_lazy, hlznode,
            hsumL, hsumR, ← sum_Icc_split _ (by omega) (by omega)]
          ring
        · rw [setTree_lazy, hlznode, zero_add]
          constructor
          · refine ReprN_congr ?_ hL2
            intro j hj
            have := isDesc_le hj
            exact ⟨setTree_tree_other _ _ (by omega), rfl⟩
          · refine ReprN_congr ?_ B2
            intro j hj
            have := isDesc_le hj
            exact ⟨setTree_tree_other _ _ (by omega), rfl⟩
      · rw [setTree_lazy, B2lazy, B1lazy]
      · show st2.n = st.n
        rw [B2n, B1n]
      · intro j hj
        have hjn : j ≠ node := fun hc => hj (hc ▸ isDesc_self node)
        rw [setTree_tree_other _ _ hjn,
          B2tree j (fun hd => hj (isDesc_of_right hd)),
          B1tree j (fun hd => hj (isDesc_of_left hd))]

/-! ### Top-level abstraction -/

/-- `st` represents the abstract array `f` (trivially true for an empty
tree). -/
def Abstracts (st : SegmentTree) (f : ℤ → ℤ) : Prop :=
  1 ≤ st.n → ReprN st ROOT_NODE 0 ((st.n : ℤ) - 1) 0 f

/-- Modelled from the spec (external interface, section 6): the brute-force
mirror of `updateRange` — add `delta` to every index in `[l, r]`, with
invalid ranges (same guard as the code) leaving the mirror unchanged. -/
def specMirrorUpdate (n : ℕ) (f : ℤ → ℤ) (l r v : ℤ) : ℤ → ℤ :=
  if n = 0 ∨ l < 0 ∨ r ≥ (n : ℤ) ∨ l > r then f
  else fun i => if l ≤ i ∧ i ≤ r then f i + v else f i

/-- Modelled from the spec (external interface, section 6): the brute-force
mirror of `queryRange` — the sum of the mirror array over `[l, r]`, or 0 on
an invalid range. -/
def specMirrorQuery (n : ℕ) (f : ℤ → ℤ) (l r : ℤ) : ℤ :=
  if n = 0 ∨ l < 0 ∨ r ≥ (n : ℤ) ∨ l > r then 0
  else ∑ i ∈ Finset.Icc l r, f i

lemma construct_abstracts (arr : List ℤ) :
    Abstracts (construct arr) (initF arr) ∧ (construct arr).n = arr.length := by
  by_cases hn : arr.length = 0
  · have hzero : (construct arr).n = 0 := by
      rw [construct]
      simp [hn]
    constructor
    · intro h1
      rw [hzero] at h1
      omega
    · rw [hzero, hn]
  · have hres : construct arr = build_recursive arr
        ⟨fun _ => 0, fun _ => 0, arr.length⟩
        ROOT_NODE 0 ((arr.length : ℤ) - 1) := by
      rw [construct]
      simp [hn]
    obtain ⟨hrep, hlazy, hn', htree⟩ := buildGo_spec
      (((arr.length : ℤ) - 1 - 0).toNat + 1) arr
      ⟨fun _ => 0, fun _ => 0, arr.length⟩ ROOT_NODE 0 ((arr.length : ℤ) - 1)
      (by omega) (by decide) (by omega) (fun _ _ => rfl)
    rw [hres, build_recursive]
    refine ⟨fun _ => ?_, hn'⟩
    rw [hn']
    exact hrep

lemma updateRange_spec {st : SegmentTree} {f : ℤ → ℤ} (h : Abstracts st f)
    (l r v : ℤ) :
    Abstracts (updateRange st l r v) (specMirrorUpdate st.n f l r v) ∧
      (updateRange st l r v).n = st.n := by
  by_cases hval : st.n = 0 ∨ l < 0 ∨ r ≥ (st.n : ℤ) ∨ l > r
  · rw [updateRange, if_pos hval, specMirrorUpdate, if_pos hval]
    exact ⟨h, rfl⟩
  · have hn1 : 1 ≤ st.n := by omega
    have hlr : 0 ≤ l ∧ l ≤ r ∧ r ≤ (st.n : ℤ) - 1 := by
      push_neg at hval
      omega
    have hres : updateRange st l r v =
        update_recursive st ROOT_NODE 0 ((st.n : ℤ) - 1) l r v := by
      rw [updateRange, if_neg hval]
    obtain ⟨hrep, _, hfr⟩ := updateGo_spec ((((st.n : ℤ) - 1) - 0).toNat + 1)
      st ROOT_NODE 0 ((st.n : ℤ) - 1) l r v f
      (by omega) (by decide) (by omega) (h hn1)
    rw [hres, update_recursive]
    refine ⟨fun _ => ?_, hfr.1⟩
    rw [hfr.1, specMirrorUpdate, if_neg hval]
    exact hrep

lemma queryRange_spec {st : SegmentTree} {f : ℤ → ℤ} (h : Abstracts st f)
    (l r : ℤ) :
    Abstracts (queryRange st l r).1 f ∧ (queryRange st l r).1.n = st.n ∧
      (queryRange st l r).2 = specMirrorQuery st.n f l r := by
  by_cases hval : st.n = 0 ∨ l < 0 ∨ r ≥ (st.n : ℤ) ∨ l > r
  · rw [queryRange, if_pos hval, specMirrorQuery, if_pos hval]
    exact ⟨h, rfl, rfl⟩
  · have hn1 : 1 ≤ st.n := by omega
    have hlr : 0 ≤ l ∧ l ≤ r ∧ r ≤ (st.n : ℤ) - 1 := by
      push_neg at hval
      omega
    have hres : queryRange st l r =
        query_recursive st ROOT_NODE 0 ((st.n : ℤ) - 1) l r := by
      rw [queryRange, if_neg hval]
    obtain ⟨hrep, hvalr, hfr⟩ := queryGo_spec ((((st.n : ℤ) - 1) - 0).toNat + 1)
      st ROOT_NODE 0 ((st.n : ℤ) - 1) l r f
      (by omega) (by decide) (by omega) (h hn1)
    rw [hres, query_recursive]
    have hinter : Finset.Icc (0 : ℤ) ((st.n : ℤ) - 1) ∩ Finset.Icc l r =
        Finset.Icc l r := by
      ext i
      simp only [Finset.mem_inter, Finset.mem_Icc]
      omega
    refine ⟨fun _ => ?_, hfr.1, ?_⟩
    · rw [hfr.1]
      exact hrep
    · rw [hvalr, hinter, specMirrorQuery, if_neg hval]

/-! ### Running command sequences against the tree and against the
brute-force mirror -/

/-- A public API call: `updateRange l r v` or `queryRange l r`. -/
inductive Cmd where
  | update (l r v : ℤ) : Cmd
  | query (l r : ℤ) : Cmd

/-- Run a sequence of API calls against the tree, threading the (mutable)
state and collecting the query results in order. -/
def runCmds : SegmentTree → List Cmd → SegmentTree × List ℤ
  | st, [] => (st, [])
  | st, Cmd.update l r v :: cs => runCmds (updateRange st l r v) cs
  | st, Cmd.query l r :: cs =>
    let q := queryRange st l r
    let rest := runCmds q.1 cs
    (rest.1, q.2 :: rest.2)

/-- Modelled from the spec (section 8, "verify via a brute-force array
mirror"): run the same sequence of calls against the mirror array. -/
def runMirror : ℕ → (ℤ → ℤ) → List Cmd → (ℤ → ℤ) × List ℤ
  | _, f, [] => (f, [])
  | n, f, Cmd.update l r v :: cs => runMirror n (specMirrorUpdate n f l r v) cs
  | n, f, Cmd.query l r :: cs =>
    let rest := runMirror n f cs
    (rest.1, specMirrorQuery n f l r :: rest.2)

/-- A state reachable from construction through any sequence of API calls. -/
def Reachable (st : SegmentTree) : Prop :=
  ∃ arr cmds, st = (runCmds (construct arr) cmds).1

/-- A reachable state together with the mirror array the same call sequence
produces. -/
def Tracks (st : SegmentTree) (f : ℤ → ℤ) : Prop :=
  ∃ arr cmds, st = (runCmds (construct arr) cmds).1 ∧
    f = (runMirror arr.length (initF arr) cmds).1

/-- Simulation: a tree abstracting `f` produces exactly the mirror's query
answers, and keeps abstracting the evolving mirror. -/
lemma runCmds_sim : ∀ (cmds : List Cmd) (st : SegmentTree) (f : ℤ → ℤ),
    Abstracts st f →
    (runCmds st cmds).2 = (runMirror st.n f cmds).2 ∧
      Abstracts (runCmds st cmds).1 ((runMirror st.n f cmds).1) ∧
      (runCmds st cmds).1.n = st.n := by
  intro cmds
  induction cmds with
  | nil =>
    intro st f h
    exact ⟨rfl, h, rfl⟩
  | cons c cs ih =>
    intro st f h
    cases c with
    | update l r v =>
      obtain ⟨h1, h2⟩ := updateRange_spec h l r v
      obtain ⟨i1, i2, i3⟩ := ih (updateRange st l r v)
        (specMirrorUpdate st.n f l r v) h1
      rw [h2] at i2
      simp only [runCmds, runMirror]
      exact ⟨i1.trans (by rw [h2]), i2, i3.trans h2⟩
    | query l r =>
      obtain ⟨h1, h2, h3⟩ := queryRange_spec h l r
      obtain ⟨i1, i2, i3⟩ := ih (queryRange st l r).1 f h1
      rw [h2] at i2
      simp only [runCmds, runMirror]
      refine ⟨?_, i2, i3.trans h2⟩
      rw [h3, i1, h2]

lemma tracks_construct (arr : List ℤ) : Tracks (construct arr) (initF arr) :=
  ⟨arr, [], rfl, rfl⟩

lemma tracks_abstracts {st : SegmentTree} {f : ℤ → ℤ} (h : Tracks st f) :
    Abstracts st f := by
  obtain ⟨arr, cmds, hst, hf⟩ := h
  have h0 := (construct_abstracts arr).1
  have hn0 := (construct_abstracts arr).2
  obtain ⟨_, h2, _⟩ := runCmds_sim cmds (construct arr) (initF arr) h0
  rw [hn0] at h2
  rw [hst, hf]
  exact h2

lemma reachable_tracks {st : SegmentTree} (h : Reachable st) :
    ∃ f, Tracks st f := by
  obtain ⟨arr, cmds, hst⟩ := h
  exact ⟨(runMirror arr.length (initF arr) cmds).1, arr, cmds, hst, rfl⟩

/-- Query answers only depend on the abstract array and the element count. -/
lemma abstracts_outputs {st1 st2 : SegmentTree} {f : ℤ → ℤ}
    (h1 : Abstracts st1 f) (h2 : Abstracts st2 f) (hn : st1.n = st2.n) :
    ∀ cmds, (runCmds st1 cmds).2 = (runCmds st2 cmds).2 := by
  intro cmds
  have a1 := (runCmds_sim cmds st1 f h1).1
  have a2 := (runCmds_sim cmds st2 f h2).1
  rw [a1, a2, hn]

/-! ### The implicit tree layout: which (node, range) pairs the recursions
visit -/

/-- The (node, range) pairs of the implicit layout over `[0, n-1]`: the root
call plus the two midpoint-split children of every internal pair.  `build`
visits exactly these pairs; `update`/`query` visit a subset (see `Calls`). -/
inductive Reach (n : ℕ) : ℕ → ℤ → ℤ → Prop where
  | top : 1 ≤ n → Reach n ROOT_NODE 0 ((n : ℤ) - 1)
  | left {node : ℕ} {s e : ℤ} : Reach n node s e → s < e →
      Reach n (2 * node) s (s + (e - s) / 2)
  | right {node : ℕ} {s e : ℤ} : Reach n node s e → s < e →
      Reach n (2 * node + 1) (s + (e - s) / 2 + 1) e

/-- The argument triples of every `update_recursive`/`query_recursive`
invocation made on behalf of a public call with query range `[l, r]`: the
top-level call issued by `updateRange`/`queryRange` on a non-empty tree, plus
the two recursive calls either routine makes exactly when its guards fall
through to the partial-overlap branch (both routines recurse under the same
state-independent conditions, lines 70-72 and 95-97 of the source). -/
inductive Calls (n : ℕ) (l r : ℤ) : ℕ → ℤ → ℤ → Prop where
  | top : 1 ≤ n → Calls n l r ROOT_NODE 0 ((n : ℤ) - 1)
  | left {node : ℕ} {s e : ℤ} : Calls n l r node s e →
      ¬(s > e ∨ s > r ∨ e < l) → ¬(l ≤ s ∧ e ≤ r) →
      Calls n l r (2 * node) s (s + (e - s) / 2)
  | right {node : ℕ} {s e : ℤ} : Calls n l r node s e →
      ¬(s > e ∨ s > r ∨ e < l) → ¬(l ≤ s ∧ e ≤ r) →
      Calls n l r (2 * node + 1) (s + (e - s) / 2 + 1) e

/-- Every call argument triple is a layout pair. -/
lemma calls_reach {n : ℕ} {l r : ℤ} {node : ℕ} {s e : ℤ}
    (h : Calls n l r node s e) : Reach n node s e := by
  induction h with
  | top h1 => exact Reach.top h1
  | left _ h1 h2 ih => exact Reach.left ih (by omega)
  | right _ h1 h2 ih => exact Reach.right ih (by omega)

/-- Depth invariant for layout pairs: at depth `d`, the node index is in
`[2^d, 2^(d+1))` and the range length shrinks fast enough that
`2^d * (e - s) ≤ n - 1`; moreover any non-root depth forces
`2^(d-1) ≤ n - 1`. -/
lemma reach_bound {n : ℕ} {nd : ℕ} {a b : ℤ} (h : Reach n nd a b) :
    ∃ d : ℕ, 2 ^ d ≤ nd ∧ nd < 2 ^ (d + 1) ∧ 1 ≤ n ∧
      0 ≤ a ∧ a ≤ b ∧ b ≤ (n : ℤ) - 1 ∧
      (2 ^ d : ℤ) * (b - a) ≤ (n : ℤ) - 1 ∧
      (∀ d' : ℕ, d = d' + 1 → (2 ^ d' : ℤ) ≤ (n : ℤ) - 1) := by
  induction h with
  | top h1 =>
    refine ⟨0, by decide, by decide, h1, by omega, by omega, by omega,
      by push_cast; omega, fun d' hd => by omega⟩
  | left hre hslt ih =>
    rename_i node s e
    obtain ⟨d, p1, p2, p3, p4, p5, p6, p7, p8⟩ := ih
    refine ⟨d + 1, ?_, ?_, p3, p4, by omega, by omega, ?_, ?_⟩
    · calc 2 ^ (d + 1) = 2 * 2 ^ d := by ring
        _ ≤ 2 * node := by omega
    · calc 2 * node < 2 * 2 ^ (d + 1) := by omega
        _ = 2 ^ (d + 1 + 1) := by ring
    · have hmid : 2 * ((s + (e - s) / 2) - s) ≤ e - s := by omega
      calc (2 ^ (d + 1) : ℤ) * ((s + (e - s) / 2) - s)
          = (2 ^ d : ℤ) * (2 * ((s + (e - s) / 2) - s)) := by ring
        _ ≤ (2 ^ d : ℤ) * (e - s) :=
            mul_le_mul_of_nonneg_left hmid (by positivity)
        _ ≤ (n : ℤ) - 1 := p7
    · intro d' hd
      have hdd : d' = d := by omega
      subst hdd
      have h1 : (2 ^ d' : ℤ) * 1 ≤ (2 ^ d' : ℤ) * (e - s) :=
        mul_le_mul_of_nonneg_left (by omega) (by positivity)
      linarith
  | right hre hslt ih =>
    rename_i node s e
    obtain ⟨d, p1, p2, p3, p4, p5, p6, p7, p8⟩ := ih
    refine ⟨d + 1, ?_, ?_, p3, by omega, by omega, p6, ?_, ?_⟩
    · calc 2 ^ (d + 1) = 2 * 2 ^ d := by ring
        _ ≤ 2 * node + 1 := by omega
    · calc 2 * node + 1 < 2 * 2 ^ (d + 1) := by omega
        _ = 2 ^ (d + 1 + 1) := by ring
    · have hmid : 2 * (e - (s + (e - s) / 2 + 1)) ≤ e - s := by omega
      calc (2 ^ (d + 1) : ℤ) * (e - (s + (e - s) / 2 + 1))
          = (2 ^ d : ℤ) * (2 * (e - (s + (e - s) / 2 + 1))) := by ring
        _ ≤ (2 ^ d : ℤ) * (e - s) :=
            mul_le_mul_of_nonneg_left hmid (by positivity)
        _ ≤ (n : ℤ) - 1 := p7
    · intro d' hd
      have hdd : d' = d := by omega
      subst hdd
      have h1 : (2 ^ d' : ℤ) * 1 ≤ (2 ^ d' : ℤ) * (e - s) :=
        mul_le_mul_of_nonneg_left (by omega) (by positivity)
      linarith

/-- Every layout node index lies in `[1, 4n)`. -/
lemma reach_lt_4n {n node : ℕ} {s e : ℤ} (h : Reach n node s e) :
    1 ≤ node ∧ node < 4 * n := by
  obtain ⟨d, p1, p2, p3, _, _, _, _, p8⟩ := reach_bound h
  have hone : 1 ≤ 2 ^ d := Nat.one_le_two_pow
  refine ⟨by omega, ?_⟩
  cases d with
  | zero =>
    norm_num at p2
    omega
  | succ d' =>
    have h8 : (2 ^ d' : ℤ) ≤ (n : ℤ) - 1 := p8 d' rfl
    have hn2 : (2 : ℕ) ^ d' < n := by
      have hcast : ((2 : ℕ) ^ d' : ℤ) < (n : ℤ) := by push_cast; linarith
      exact_mod_cast hcast
    have hp : 2 ^ (d' + 1 + 1) = 4 * 2 ^ d' := by ring
    rw [hp] at p2
    generalize hk : (2 : ℕ) ^ d' = k at p2 hn2
    omega

/-- Also every `Reach` triple has a well-ordered range inside `[0, n-1]`. -/
lemma reach_range {n node : ℕ} {s e : ℤ} (h : Reach n node s e) :
    0 ≤ s ∧ s ≤ e ∧ e ≤ (n : ℤ) - 1 := by
  obtain ⟨d, _, _, _, p4, p5, p6, _, _⟩ := reach_bound h
  exact ⟨p4, p5, p6⟩

/-! ### Sum of pending deltas along the ancestor chain -/

/-- Fuelled ancestor-chain walk (halving the index reaches each ancestor). -/
def spineAux (st : SegmentTree) : ℕ → ℕ → ℤ
  | 0, _ => 0
  | fuel + 1, node =>
    if node = 0 then 0 else st.lazy node + spineAux st fuel (node / 2)

/-- Sum of the pending deltas stored at `node` and all its ancestors up to
the root (`node` itself included; `spineSum st (node / 2)` is the sum over
the proper ancestors). -/
def spineSum (st : SegmentTree) (node : ℕ) : ℤ := spineAux st node node

lemma spineAux_zero (st : SegmentTree) : ∀ f, spineAux st f 0 = 0 := by
  intro f
  cases f <;> simp [spineAux]

lemma spineAux_irrel (st : SegmentTree) :
    ∀ (f1 f2 node : ℕ), node ≤ f1 → node ≤ f2 →
    spineAux st f1 node = spineAux st f2 node := by
  intro f1
  induction f1 using Nat.strong_induction_on with
  | _ f1 ih =>
    intro f2 node h1 h2
    by_cases h0 : node = 0
    · rw [h0, spineAux_zero, spineAux_zero]
    · cases f1 with
      | zero => omega
      | succ c =>
        cases f2 with
        | zero => omega
        | succ b =>
          simp only [spineAux, if_neg h0]
          rw [ih c (by omega) b (node / 2) (by omega) (by omega)]

lemma spineSum_zero (st : SegmentTree) : spineSum st 0 = 0 := rfl

lemma spineSum_succ {st : SegmentTree} {node : ℕ} (h : 1 ≤ node) :
    spineSum st node = st.lazy node + spineSum st (node / 2) := by
  cases node with
  | zero => omega
  | succ m =>
    rw [spineSum, spineSum]
    simp only [spineAux, if_neg (by omega : ¬ m + 1 = 0)]
    rw [spineAux_irrel st m ((m + 1) / 2) ((m + 1) / 2) (by omega) (le_refl _)]

/-- Along any layout pair, the pending-above accumulator of the root
invariant is exactly the ancestor-chain sum: the per-node form of the
invariant holds at every reachable layout node. -/
lemma ReprN_reach {st : SegmentTree} {f : ℤ → ℤ} {n : ℕ} {nd : ℕ} {a b : ℤ}
    (h : Reach n nd a b) (hroot : ReprN st ROOT_NODE 0 ((n : ℤ) - 1) 0 f) :
    ReprN st nd a b (spineSum st (nd / 2)) f := by
  induction h with
  | top h1 =>
    have hd : ROOT_NODE / 2 = 0 := by decide
    rw [hd, spineSum_zero]
    exact hroot
  | left hre hslt ih =>
    rename_i node s e
    have hnode1 : 1 ≤ node := (reach_lt_4n hre).1
    have hdiv : 2 * node / 2 = node := by omega
    rw [hdiv]
    have hch := (((ReprN_def _ _ _ _ _ _).1 ih).2 hslt).1
    rw [spineSum_succ hnode1]
    exact hch
  | right hre hslt ih =>
    rename_i node s e
    have hnode1 : 1 ≤ node := (reach_lt_4n hre).1
    have hdiv : (2 * node + 1) / 2 = node := by omega
    rw [hdiv, spineSum_succ hnode1]
    have hch := (((ReprN_def _ _ _ _ _ _).1 ih).2 hslt).2
    exact hch

/-! ### Fuel irrelevance: the recursions are well defined -/

lemma buildGo_fuel (arr : List ℤ) :
    ∀ (f1 f2 : ℕ) (st : SegmentTree) (node : ℕ) (s e : ℤ),
    s ≤ e → (e - s).toNat < f1 → (e - s).toNat < f2 →
    buildGo arr f1 st node s e = buildGo arr f2 st node s e := by
  intro f1
  induction f1 using Nat.strong_induction_on with
  | _ f1 ih =>
    intro f2 st node s e hse h1 h2
    cases f1 with
    | zero => omega
    | succ c =>
      cases f2 with
      | zero => omega
      | succ b =>
        by_cases hleaf : s = e
        · simp only [buildGo, if_pos hleaf]
        · have hslt : s < e := by omega
          simp only [buildGo, if_neg hleaf]
          rw [ih c (by omega) b st (2 * node) s (s + (e - s) / 2)
            (by omega) (by omega) (by omega)]
          rw [ih c (by omega) b (buildGo arr b st (2 * node) s (s + (e - s) / 2))
            (2 * node + 1) (s + (e - s) / 2 + 1) e
            (by omega) (by omega) (by omega)]

lemma updateGo_fuel :
    ∀ (f1 f2 : ℕ) (st : SegmentTree) (node : ℕ) (s e l r v : ℤ),
    (e - s).toNat < f1 → (e - s).toNat < f2 →
    updateGo f1 st node s e l r v = updateGo f2 st node s e l r v := by
  intro f1
  induction f1 using Nat.strong_induction_on with
  | _ f1 ih =>
    intro f2 st node s e l r v h1 h2
    cases f1 with
    | zero => omega
    | succ c =>
      cases f2 with
      | zero => omega
      | succ b =>
        by_cases hdis : s > e ∨ s > r ∨ e < l
        · simp only [updateGo, if_pos hdis]
        · by_cases hcon : l ≤ s ∧ e ≤ r
          · simp only [updateGo, if_neg hdis, if_pos hcon]
          · have hslt : s < e := by omega
            simp only [updateGo, if_neg hdis, if_neg hcon]
            rw [ih c (by omega) b (push st node s e) (2 * node) s
              (s + (e - s) / 2) l r v (by omega) (by omega)]
            rw [ih c (by omega) b
              (updateGo b (push st node s e) (2 * node) s (s + (e - s) / 2) l r v)
              (2 * node + 1) (s + (e - s) / 2 + 1) e l r v
              (by omega) (by omega)]

lemma queryGo_fuel :
    ∀ (f1 f2 : ℕ) (st : SegmentTree) (node : ℕ) (s e l r : ℤ),
    (e - s).toNat < f1 → (e - s).toNat < f2 →
    queryGo f1 st node s e l r = queryGo f2 st node s e l r := by
  intro f1
  induction f1 using Nat.strong_induction_on with
  | _ f1 ih =>
    intro f2 st node s e l r h1 h2
    cases f1 with
    | zero => omega
    | succ c =>
      cases f2 with
      | zero => omega
      | succ b =>
        by_cases hdis : s > e ∨ s > r ∨ e < l
        · simp only [queryGo, if_pos hdis]
        · by_cases hcon : l ≤ s ∧ e ≤ r
          · simp only [queryGo, if_neg hdis, if_pos hcon]
          · have hslt : s < e := by omega
            simp only [queryGo, if_neg hdis, if_neg hcon]
            rw [ih c (by omega) b (push st node s e) (2 * node) s
              (s + (e - s) / 2) l r (by omega) (by omega)]
            rw [ih c (by omega) b
              (queryGo b (push st node s e) (2 * node) s (s + (e - s) / 2) l r).1
              (2 * node + 1) (s + (e - s) / 2 + 1) e l r
              (by omega) (by omega)]

/-! ### Relating interval sums over ℤ to list sums -/

lemma sum_Icc_eq_range (f : ℤ → ℤ) (m : ℕ) :
    (∑ i ∈ Finset.Icc (0 : ℤ) ((m : ℤ) - 1), f i) =
      ∑ k ∈ Finset.range m, f (k : ℤ) := by
  induction m with
  | zero =>
    rw [Finset.range_zero, Finset.sum_empty, Finset.Icc_eq_empty (by norm_num),
      Finset.sum_empty]
  | succ m ihm =>
    by_cases hm : m = 0
    · subst hm
      rw [show ((0 + 1 : ℕ) : ℤ) - 1 = 0 by norm_num, Finset.Icc_self,
        Finset.sum_singleton, Finset.range_one, Finset.sum_singleton]
      norm_num
    · rw [Finset.sum_range_succ, ← ihm]
      have hc : ((m + 1 : ℕ) : ℤ) - 1 = (m : ℤ) := by push_cast; ring
      rw [hc, sum_Icc_split f (by omega : (0 : ℤ) ≤ (m : ℤ) - 1)
        (by omega : ((m : ℤ) - 1) ≤ (m : ℤ)),
        show ((m : ℤ) - 1) + 1 = (m : ℤ) by ring, Finset.Icc_self,
        Finset.sum_singleton]

lemma sum_range_getD (arr : List ℤ) :
    (∑ k ∈ Finset.range arr.length, arr.getD k 0) = arr.sum := by
  induction arr with
  | nil => simp
  | cons a t iht =>
    rw [List.length_cons, Finset.sum_range_succ', List.sum_cons]
    have h1 : ∀ k, (a :: t).getD (k + 1) 0 = t.getD k 0 := fun k => rfl
    have h2 : (a :: t).getD 0 0 = a := rfl
    rw [h2, Finset.sum_congr rfl (fun k _ => h1 k), iht]
    ring

lemma sum_Icc_initF (arr : List ℤ) :
    (∑ i ∈ Finset.Icc (0 : ℤ) ((arr.length : ℤ) - 1), initF arr i) =
      arr.sum := by
  rw [sum_Icc_eq_range (initF arr) arr.length, ← sum_range_getD arr]
  refine Finset.sum_congr rfl ?_
  intro k _
  rw [initF]
  simp

/-! ## The claims -/

/-- C1: refinement against the brute-force mirror.  For every initial integer
array and every finite sequence of `updateRange`/`queryRange` calls, the
query answers produced by the segment tree are exactly those of the mirror
array that starts as `A` and, for each valid earlier update `(l, r, delta)`,
adds `delta` to every index of `[l, r]` (invalid updates leave the mirror
unchanged, and a valid query returns the sum of the mirror over `[l, r]`;
`runMirror` is that mirror, modelled from the spec's words). -/
theorem c1_refinement_mirror (arr : List ℤ) (cmds : List Cmd) :
    (runCmds (construct arr) cmds).2 =
      (runMirror arr.length (initF arr) cmds).2 := by
  obtain ⟨h0, hn0⟩ := construct_abstracts arr
  have hsim := (runCmds_sim cmds (construct arr) (initF arr) h0).1
  rw [hsim, hn0]

/-- C2: for every reachable tree state and valid `(l, r, delta)`, after
`updateRange l r delta` the query over `[l, r]` returns its pre-update value
plus `delta * (r - l + 1)`, and every valid query range disjoint from
`[l, r]` returns the same value as before the update. -/
theorem c2_update_query_delta (st : SegmentTree) (l r v : ℤ)
    (hre : Reachable st) (h0 : 0 ≤ l) (hlr : l ≤ r) (hr : r < (st.n : ℤ)) :
    (queryRange (updateRange st l r v) l r).2 =
        (queryRange st l r).2 + v * (r - l + 1) ∧
      (∀ a b : ℤ, 0 ≤ a → a ≤ b → b < (st.n : ℤ) → (b < l ∨ r < a) →
        (queryRange (updateRange st l r v) a b).2 = (queryRange st a b).2) := by
  obtain ⟨f, htr⟩ := reachable_tracks hre
  have habs := tracks_abstracts htr
  obtain ⟨habs', hn'⟩ := updateRange_spec habs l r v
  have hval : ¬ (st.n = 0 ∨ l < 0 ∨ r ≥ (st.n : ℤ) ∨ l > r) := by omega
  have hf' : specMirrorUpdate st.n f l r v =
      fun i => if l ≤ i ∧ i ≤ r then f i + v else f i := by
    rw [specMirrorUpdate, if_neg hval]
  constructor
  · have q1 := (queryRange_spec habs l r).2.2
    have q2 := (queryRange_spec habs' l r).2.2
    rw [hn'] at q2
    rw [q1, q2, specMirrorQuery, if_neg hval, specMirrorQuery, if_neg hval,
      hf']
    have hsum : (∑ i ∈ Finset.Icc l r,
        (fun i => if l ≤ i ∧ i ≤ r then f i + v else f i) i) =
        (∑ i ∈ Finset.Icc l r, f i) + (r - l + 1) * v := by
      rw [sum_Icc_congr (g := fun i => f i + v)
        (fun i h1 h2 => by rw [if_pos (by omega)]),
        sum_Icc_add_const f v hlr]
    rw [hsum]
    ring
  · intro a b ha hab hb hdisj
    have hvalab : ¬ (st.n = 0 ∨ a < 0 ∨ b ≥ (st.n : ℤ) ∨ a > b) := by omega
    have q1 := (queryRange_spec habs a b).2.2
    have q2 := (queryRange_spec habs' a b).2.2
    rw [hn'] at q2
    rw [q1, q2, specMirrorQuery, if_neg hvalab, specMirrorQuery, if_neg hvalab,
      hf']
    refine sum_Icc_congr ?_
    intro i h1 h2
    rw [if_neg (by omega)]

/-- C2 witness: the singleton tree built from `[5]`, updated on `[0, 0]` by 3. -/
theorem c2_update_query_delta_witness :
    Reachable (construct [5]) ∧ (0 : ℤ) ≤ 0 ∧ (0 : ℤ) ≤ 0 ∧
      (0 : ℤ) < ((construct [5]).n : ℤ) ∧
      ((queryRange (updateRange (construct [5]) 0 0 3) 0 0).2 =
          (queryRange (construct [5]) 0 0).2 + 3 * (0 - 0 + 1) ∧
        (∀ a b : ℤ, 0 ≤ a → a ≤ b → b < ((construct [5]).n : ℤ) →
          (b < 0 ∨ 0 < a) →
          (queryRange (updateRange (construct [5]) 0 0 3) a b).2 =
            (queryRange (construct [5]) a b).2)) :=
  ⟨⟨[5], [], rfl⟩, by decide, by decide, by decide,
    c2_update_query_delta (construct [5]) 0 0 3 ⟨[5], [], rfl⟩
      (by decide) (by decide) (by decide)⟩

/-- C3 (counterexample): in the reachable state obtained by constructing from
`[1, 2]` and adding 5 on `[0, 1]`, node 2 covers `[0, 0]` and the claimed
equation fails: the stored aggregate does not already reflect the node's own
pending delta, so aggregate plus length times the pending deltas of the
*proper ancestors only* (here `spineSum st (2 / 2) = lazy[1] = 0`) is 1,
while the true sum of the represented (mirror) array over `[0, 0]` is 6. -/
theorem c3_counterexample :
    ¬ ((updateRange (construct [1, 2]) 0 1 5).tree 2 +
        ((0 : ℤ) - 0 + 1) *
          spineSum (updateRange (construct [1, 2]) 0 1 5) (2 / 2) =
        ∑ i ∈ Finset.Icc (0 : ℤ) 0,
          (runMirror (List.length [1, 2]) (initF [1, 2])
            [Cmd.update 0 1 5]).1 i) := by
  decide

/-- C3 (amended): in every reachable state, for every node of the layout
with covered range `[s, e]`, the true sum of the represented array over
`[s, e]` equals the stored aggregate plus `(e - s + 1)` times the sum of the
pending deltas stored at the node *itself* and at its proper ancestors (the
aggregate excludes the node's own pending delta); in particular the true sum
equals the aggregate whenever no node on the root path, the node included,
holds a non-zero pending delta. -/
theorem c3_amended (st : SegmentTree) (f : ℤ → ℤ) (node : ℕ) (s e : ℤ)
    (htr : Tracks st f) (hreach : Reach st.n node s e) :
    st.tree node +
        (e - s + 1) * (st.lazy node + spineSum st (node / 2)) =
      ∑ i ∈ Finset.Icc s e, f i := by
  have habs := tracks_abstracts htr
  obtain ⟨d, _, _, hn1, _, hse, _, _, _⟩ := reach_bound hreach
  have hroot := habs hn1
  have h := ReprN_reach hreach hroot
  exact ((ReprN_def _ _ _ _ _ _).1 h).1 hse

/-- C3 witness: the state after constructing `[1, 2]` and adding 5 on
`[0, 1]`, instantiated at node 2 covering `[0, 0]`. -/
theorem c3_amended_witness :
    Tracks (updateRange (construct [1, 2]) 0 1 5)
        ((runMirror (List.length [1, 2]) (initF [1, 2])
          [Cmd.update 0 1 5]).1) ∧
      Reach (updateRange (construct [1, 2]) 0 1 5).n 2 0 0 ∧
      ((updateRange (construct [1, 2]) 0 1 5).tree 2 +
          ((0 : ℤ) - 0 + 1) *
            ((updateRange (construct [1, 2]) 0 1 5).lazy 2 +
              spineSum (updateRange (construct [1, 2]) 0 1 5) (2 / 2)) =
        ∑ i ∈ Finset.Icc (0 : ℤ) 0,
          (runMirror (List.length [1, 2]) (initF [1, 2])
            [Cmd.update 0 1 5]).1 i) := by
  have htr : Tracks (updateRange (construct [1, 2]) 0 1 5)
      ((runMirror (List.length [1, 2]) (initF [1, 2])
        [Cmd.update 0 1 5]).1) :=
    ⟨[1, 2], [Cmd.update 0 1 5], rfl, rfl⟩
  have hn : (updateRange (construct [1, 2]) 0 1 5).n = 2 := by decide
  have hreach : Reach (updateRange (construct [1, 2]) 0 1 5).n 2 0 0 := by
    rw [hn]
    have htop : Reach 2 ROOT_NODE 0 ((2 : ℕ) - 1 : ℤ) := Reach.top (by norm_num)
    have h2 : Reach 2 (2 * ROOT_NODE) 0
        (0 + (((2 : ℕ) - 1 : ℤ) - 0) / 2) := Reach.left htop (by norm_num)
    have he : (0 : ℤ) + (((2 : ℕ) - 1 : ℤ) - 0) / 2 = 0 := by norm_num
    rw [he] at h2
    have hnn : 2 * ROOT_NODE = 2 := by decide
    rw [hnn] at h2
    exact h2
  exact ⟨htr, hreach,
    c3_amended (updateRange (construct [1, 2]) 0 1 5) _ 2 0 0 htr hreach⟩

/-- C4: for every tree state (including the empty tree) and every invalid
range (`n = 0`, `l < 0`, `r ≥ n` or `l > r`), `updateRange` leaves the whole
state unchanged and `queryRange` returns 0 and leaves the state unchanged;
neither signals any error. -/
theorem c4_invalid_noop (st : SegmentTree) (l r v : ℤ)
    (h : st.n = 0 ∨ l < 0 ∨ r ≥ (st.n : ℤ) ∨ l > r) :
    updateRange st l r v = st ∧ queryRange st l r = (st, 0) := by
  rw [updateRange, if_pos h, queryRange, if_pos h]
  exact ⟨rfl, rfl⟩

/-- C4 witness: the tree built from the empty array. -/
theorem c4_invalid_noop_witness :
    ((construct []).n = 0 ∨ (0 : ℤ) < 0 ∨ (0 : ℤ) ≥ ((construct []).n : ℤ) ∨
        (0 : ℤ) > 0) ∧
      (updateRange (construct []) 0 0 1 = construct [] ∧
        queryRange (construct []) 0 0 = (construct [], 0)) :=
  ⟨by decide, c4_invalid_noop (construct []) 0 0 1 (by decide)⟩

/-- C5: immediately after construction from a non-empty array, the query
over `[0, N-1]` returns the sum of the array, and the query over `[i, i]`
returns `A[i]` for every valid index `i`. -/
theorem c5_build_point (arr : List ℤ) (h : arr ≠ []) :
    (queryRange (construct arr) 0 ((arr.length : ℤ) - 1)).2 = arr.sum ∧
      ∀ i : ℤ, 0 ≤ i → i ≤ (arr.length : ℤ) - 1 →
        (queryRange (construct arr) i i).2 = arr.getD i.toNat 0 := by
  obtain ⟨habs, hn0⟩ := construct_abstracts arr
  have hlen : 1 ≤ arr.length := List.length_pos.mpr h
  constructor
  · have q := (queryRange_spec habs 0 ((arr.length : ℤ) - 1)).2.2
    rw [q, hn0, specMirrorQuery, if_neg (by omega), sum_Icc_initF]
  · intro i h1 h2
    have q := (queryRange_spec habs i i).2.2
    rw [q, hn0, specMirrorQuery, if_neg (by omega), Finset.Icc_self,
      Finset.sum_singleton, initF]

/-- C5 witness: the array `[3, 4]`. -/
theorem c5_build_point_witness :
    ([3, 4] : List ℤ) ≠ [] ∧
      ((queryRange (construct [3, 4]) 0 (((List.length [3, 4] : ℕ) : ℤ) - 1)).2 =
          List.sum [3, 4] ∧
        ∀ i : ℤ, 0 ≤ i → i ≤ (((List.length [3, 4] : ℕ) : ℤ)) - 1 →
          (queryRange (construct [3, 4]) i i).2 = List.getD [3, 4] i.toNat 0) :=
  ⟨by decide, c5_build_point [3, 4] (by decide)⟩

/-- C6 (counterexample): the update recursion does *not* leave the arrays
exactly as they were when it visits a disjoint node, because it pushes the
node's pending delta before the disjoint check.  Concretely: build from
`[1, 2, 3, 4]`, add 5 on `[0, 3]` (which leaves pending 5 at node 3), then
visit node 3 (range `[2, 3]`) with the disjoint update range `[0, 1]`: the
state changes (`tree[3]` absorbs the pending delta). -/
theorem c6_counterexample :
    update_recursive (updateRange (construct [1, 2, 3, 4]) 0 3 5) 3 2 3 0 1 7 ≠
      updateRange (construct [1, 2, 3, 4]) 0 3 5 := by
  intro h
  exact absurd (congrArg (fun t => t.tree 3) h) (by decide)

/-- C6 (amended): whenever the update recursion visits a node whose covered
range is disjoint from the update range (`s > e`, `s > r` or `e < l`), it
returns immediately after the initial push-down: the resulting state is
exactly `push st node s e`; in particular, if the visited node held no
pending delta, the aggregate and pending arrays are exactly as they were
immediately before the node was visited. -/
theorem c6_disjoint_push_only (st : SegmentTree) (node : ℕ) (s e l r v : ℤ)
    (h : s > e ∨ s > r ∨ e < l) :
    update_recursive st node s e l r v = push st node s e ∧
      (st.lazy node = 0 → update_recursive st node s e l r v = st) := by
  have h1 : update_recursive st node s e l r v = push st node s e := by
    rw [update_recursive]
    simp only [updateGo]
    rw [if_pos h]
  refine ⟨h1, fun h0 => ?_⟩
  rw [h1, push, if_neg (not_not_intro h0)]

/-- C6 witness: a leaf node visited with an empty update range. -/
theorem c6_disjoint_push_only_witness :
    ((0 : ℤ) > 0 ∨ (0 : ℤ) > -1 ∨ (0 : ℤ) < 0) ∧
      (update_recursive (construct [1]) 1 0 0 0 (-1) 5 =
          push (construct [1]) 1 0 0 ∧
        ((construct [1]).lazy 1 = 0 →
          update_recursive (construct [1]) 1 0 0 0 (-1) 5 = construct [1])) :=
  ⟨by norm_num, c6_disjoint_push_only (construct [1]) 1 0 0 0 (-1) 5
    (by norm_num)⟩

/-- C7: every node position the recursions read or write lies in `[1, 4N)`.
`Reach` enumerates the (node, range) pairs of the implicit layout — exactly
the pairs `build_recursive` visits, and a superset (via `Calls`, the argument
triples of the update/query recursions, second disjunct) of the pairs visited
by updates and queries; every array access of the routines is at the visited
node itself or, when its range is not a leaf (`s < e`, the only case in which
`push` and the contained/partial branches touch children), at its two
children.  All such positions are at least 1 and strictly below `4 * n`, for
arbitrary `n ≥ 1` and not just powers of two. -/
theorem c7_access_bounds (n node : ℕ) (s e : ℤ)
    (h : Reach n node s e ∨ ∃ l r : ℤ, Calls n l r node s e) :
    (1 ≤ node ∧ node < 4 * n) ∧
      (s < e → 1 ≤ 2 * node ∧ 2 * node + 1 < 4 * n) := by
  have hre : Reach n node s e := by
    rcases h with h | ⟨l, r, h⟩
    · exact h
    · exact calls_reach h
  refine ⟨reach_lt_4n hre, fun hlt => ?_⟩
  have h1 := (reach_lt_4n hre).1
  have hr := reach_lt_4n (Reach.right hre hlt)
  exact ⟨by omega, hr.2⟩

/-- C7 witness: the root pair of a singleton tree. -/
theorem c7_access_bounds_witness :
    (Reach 1 ROOT_NODE 0 (((1 : ℕ) : ℤ) - 1) ∨
        ∃ l r : ℤ, Calls 1 l r ROOT_NODE 0 (((1 : ℕ) : ℤ) - 1)) ∧
      ((1 ≤ ROOT_NODE ∧ ROOT_NODE < 4 * 1) ∧
        ((0 : ℤ) < ((1 : ℕ) : ℤ) - 1 →
          1 ≤ 2 * ROOT_NODE ∧ 2 * ROOT_NODE + 1 < 4 * 1)) :=
  ⟨Or.inl (Reach.top (le_refl 1)),
    c7_access_bounds 1 ROOT_NODE 0 (((1 : ℕ) : ℤ) - 1)
      (Or.inl (Reach.top (le_refl 1)))⟩

/-- C8: every call of the update/query recursions reachable from the public
API on a non-empty tree — the top-level call on `[0, n-1]` and the recursive
calls both routines make exactly when neither the disjoint nor the contained
guard fires (`Calls`) — satisfies `start ≤ end`, so the defensive
`start > end` guard never fires in an execution reachable from the API. -/
theorem c8_guard_unreachable (n : ℕ) (l r : ℤ) (node : ℕ) (s e : ℤ)
    (h : Calls n l r node s e) : s ≤ e := by
  induction h with
  | top h1 => omega
  | left hc h1 h2 ih => omega
  | right hc h1 h2 ih => omega

/-- C8 witness: the top-level call of a singleton tree. -/
theorem c8_guard_unreachable_witness : (0 : ℤ) ≤ ((1 : ℕ) : ℤ) - 1 :=
  c8_guard_unreachable 1 0 0 ROOT_NODE 0 (((1 : ℕ) : ℤ) - 1)
    (Calls.top (le_refl 1))

/-- C9: `queryRange` is observationally pure.  Although the query recursion
pushes pending deltas down (mutating both arrays), running any later command
sequence — updates and queries alike — from the post-query state produces
exactly the same answers as running it from the pre-query state, for every
reachable state and every (valid or invalid) query range. -/
theorem c9_query_observationally_pure (st : SegmentTree) (l r : ℤ)
    (cmds : List Cmd) (hre : Reachable st) :
    (runCmds (queryRange st l r).1 cmds).2 = (runCmds st cmds).2 := by
  obtain ⟨f, htr⟩ := reachable_tracks hre
  have habs := tracks_abstracts htr
  obtain ⟨h1, h2, _⟩ := queryRange_spec habs l r
  exact abstracts_outputs h1 habs h2 cmds

/-- C9 witness: query `[0, 1]` on the tree built from `[1, 2]`, then replay a
query of `[0, 1]`. -/
theorem c9_query_observationally_pure_witness :
    Reachable (construct [1, 2]) ∧
      (runCmds (queryRange (construct [1, 2]) 0 1).1 [Cmd.query 0 1]).2 =
        (runCmds (construct [1, 2]) [Cmd.query 0 1]).2 :=
  ⟨⟨[1, 2], [], rfl⟩,
    c9_query_observationally_pure (construct [1, 2]) 0 1 [Cmd.query 0 1]
      ⟨[1, 2], [], rfl⟩⟩

/-- C10: termination of the three recursions on every call originating from
the public API (which guarantees `s ≤ e` at the top level).  The fuelled
bodies are literally the C++ recursions, and any recursion-depth budget
strictly larger than `end - start` computes the same total result — the
well-founded recursion on `end - start` that `build_recursive`,
`update_recursive` and `query_recursive` are defined by. -/
theorem c10_termination (arr : List ℤ) (st : SegmentTree) (node : ℕ)
    (s e l r v : ℤ) (fuel : ℕ) (hse : s ≤ e) (hf : (e - s).toNat < fuel) :
    buildGo arr fuel st node s e = build_recursive arr st node s e ∧
      updateGo fuel st node s e l r v = update_recursive st node s e l r v ∧
      queryGo fuel st node s e l r = query_recursive st node s e l r := by
  refine ⟨?_, ?_, ?_⟩
  · rw [build_recursive]
    exact buildGo_fuel arr fuel ((e - s).toNat + 1) st node s e hse hf
      (by omega)
  · rw [update_recursive]
    exact updateGo_fuel fuel ((e - s).toNat + 1) st node s e l r v hf
      (by omega)
  · rw [query_recursive]
    exact queryGo_fuel fuel ((e - s).toNat + 1) st node s e l r hf (by omega)

/-- C10 witness: a singleton range with a generous budget. -/
theorem c10_termination_witness :
    (0 : ℤ) ≤ 0 ∧ ((0 : ℤ) - 0).toNat < 3 ∧
      (buildGo [1] 3 (construct [1]) 1 0 0 =
          build_recursive [1] (construct [1]) 1 0 0 ∧
        updateGo 3 (construct [1]) 1 0 0 0 0 2 =
          update_recursive (construct [1]) 1 0 0 0 0 2 ∧
        queryGo 3 (construct [1]) 1 0 0 0 0 =
          query_recursive (construct [1]) 1 0 0 0 0) :=
  ⟨by decide, by decide,
    c10_termination [1] (construct [1]) 1 0 0 0 0 2 3 (by decide) (by decide)⟩
